import Mathlib

/-!
Verification of the figma-editor repository's core mechanisms against its
design specification: the undo/redo history manager (`src/store/editorStore.ts`),
the archive processor (`processZipFile`, `addVisualIdsToHtml`), and the
document assembler / export assembler (`buildHtmlDocument`, `createZipFromProject`).

The TypeScript source is shallowly embedded:
* file contents and message strings are modelled as `String` / `List Char`
  (JS strings are sequences of code units);
* parsed HTML documents are modelled as rose trees (`Elem`) — the browser's
  `DOMParser`/serializer pair is an external collaborator assumed to
  round-trip a document, so the tree *is* the document;
* the mutable-aliasing structure that `JSON.parse(JSON.stringify(...))`
  deep copies is modelled by tagging every `Project` value with the set of
  heap regions its object graph reaches (`region : List Nat`); a deep copy
  allocates a fresh region, an object spread shares the old regions;
* `Date.now()` is modelled by a logical clock held in the state;
* the single-threaded event-driven store is a state machine (`step : Op →
  EditorState → EditorState`); the debounced history commit is the
  `pending` field (a scheduled action that survives until it is flushed,
  cancelled or replaced, exactly like the module-level debouncer closure).
-/

set_option maxHeartbeats 2000000
set_option maxRecDepth 8000

namespace FigmaEditor

/-! ## Basic list-of-characters string machinery

JS string primitives used by the source (`includes`, first-occurrence
`replace`, the injected-style-block regex) are embedded as executable
functions on `List Char`. -/

/-- Split a list at the first occurrence of `pat`: returns the part strictly
before the occurrence and the part strictly after it. Mirrors the search
behaviour of `String.prototype.indexOf` / first-occurrence `replace`. -/
def splitFirst (pat : List Char) : List Char → Option (List Char × List Char)
  | [] => if pat.isPrefixOf ([] : List Char) then some ([], []) else none
  | c :: cs =>
    if pat.isPrefixOf (c :: cs) then some ([], (c :: cs).drop pat.length)
    else match splitFirst pat cs with
      | none => none
      | some (p, s) => some (c :: p, s)

/-- Membership test for a contiguous substring, as `String.prototype.includes`. -/
def containsSub (pat s : List Char) : Bool :=
  (splitFirst pat s).isSome

/-! ## Decimal numerals

`el-${counter}` identifier generation uses JS number-to-string conversion;
it is embedded as an executable base-10 encoder together with a decoder,
whose round-trip property yields injectivity of the generated identifiers. -/

/-- Fuel-driven base-10 digit encoder (most significant digit first); with
fuel at least `n + 1` it produces the standard decimal numeral of `n`. -/
def natDigitsAux : Nat → Nat → List Char
  | 0, _ => []
  | fuel + 1, n =>
    if n < 10 then [Nat.digitChar n]
    else natDigitsAux fuel (n / 10) ++ [Nat.digitChar (n % 10)]

/-- Decimal numeral of `n`, as produced by JS template interpolation. -/
def natDigits (n : Nat) : List Char := natDigitsAux (n + 1) n

/-- Value of a decimal digit character, if it is one. -/
def digitVal (c : Char) : Option Nat :=
  if c = '0' then some 0 else if c = '1' then some 1 else if c = '2' then some 2
  else if c = '3' then some 3 else if c = '4' then some 4 else if c = '5' then some 5
  else if c = '6' then some 6 else if c = '7' then some 7 else if c = '8' then some 8
  else if c = '9' then some 9 else none

/-- Decoder for nonempty all-digit strings (as `parseInt(ds, 10)` on them). -/
def decDigitsAux (acc : Nat) : List Char → Option Nat
  | [] => some acc
  | c :: cs =>
    match digitVal c with
    | some d => decDigitsAux (acc * 10 + d) cs
    | none => none

def decDigits (l : List Char) : Option Nat :=
  match l with
  | [] => none
  | _ => decDigitsAux 0 l

/-! ## Parsed HTML documents

`DOMParser.parseFromString` / `outerHTML` serialization are browser
collaborators (spec section 6 treats the HTML parser/serializer as a black
box that round-trips a document), so an HTML file's content is modelled
directly as its element tree. A node carries the `data-visual-id` marker
attribute (if present), its other attributes, inline styles, optional text
content, and child element nodes. -/

inductive Elem where
  | mk (marker : Option String) (styles attrs : List (String × String))
       (text : Option String) (children : List Elem)

/-- The marker string `el-${n}` generated by the injection walk. -/
def elStr (n : Nat) : String := String.mk ('e' :: 'l' :: '-' :: natDigits n)

/-- Inverse of `elStr` on exact `el-<digits>` strings; this is precisely the
set of attribute values matched by the scan regex `data-visual-id="el-(\d+)"`
(the value must consist of `el-` followed by one or more decimal digits). -/
def parseElId (s : String) : Option Nat :=
  match s.data with
  | 'e' :: 'l' :: '-' :: ds => decDigits ds
  | _ => none

mutual
/-- The recursive `addIds` walk of `addVisualIdsToHtml`
(`src/utils/colorUtils.ts` / `src/utils/fileUtils.ts`): visit the node, and
if it has no `data-visual-id` attribute assign `el-${idCounter++}`; then
recurse over the children left to right. The counter threads through the
whole walk. -/
def addIdsE : Elem → Nat → Elem × Nat
  | .mk m s a t cs, c =>
    let p : Option String × Nat :=
      match m with
      | none => (some (elStr c), c + 1)
      | some v => (some v, c)
    let q := addIdsL cs p.2
    (.mk p.1 s a t q.1, q.2)

def addIdsL : List Elem → Nat → List Elem × Nat
  | [], c => ([], c)
  | e :: es, c =>
    let p := addIdsE e c
    let q := addIdsL es p.2
    (p.1 :: q.1, q.2)
end

mutual
/-- Number of element nodes in the tree. -/
def countE : Elem → Nat
  | .mk _ _ _ _ cs => 1 + countL cs
def countL : List Elem → Nat
  | [] => 0
  | e :: es => countE e + countL es
end

mutual
/-- Every element node carries a marker. -/
def allMarkedE : Elem → Bool
  | .mk m _ _ _ cs => m.isSome && allMarkedL cs
def allMarkedL : List Elem → Bool
  | [] => true
  | e :: es => allMarkedE e && allMarkedL es
end

mutual
/-- No element node carries a marker. -/
def markerFreeE : Elem → Bool
  | .mk m _ _ _ cs => m.isNone && markerFreeL cs
def markerFreeL : List Elem → Bool
  | [] => true
  | e :: es => markerFreeE e && markerFreeL es
end

mutual
/-- All marker attribute values present in the tree, in pre-order. -/
def markersE : Elem → List String
  | .mk m _ _ _ cs => m.toList ++ markersL cs
def markersL : List Elem → List String
  | [] => []
  | e :: es => markersE e ++ markersL es
end

/-! Pointwise list-level lemmas about the injection walk; the element-level
statements follow by `elem_induction`. -/

/-! ## The id-scan after injection

After injecting ids into an HTML file, `processZipFile` scans the serialized
output with `processed.match(/data-visual-id="el-(\d+)"/g)` and continues the
shared counter above the maximum matched number. On the serialized document
this regex matches every marker attribute whose value is exactly
`el-<digits>` (attribute serialization escapes inner quotes, so no other
attribute can produce a match) and may additionally match verbatim
occurrences of the pattern inside text nodes (text serialization does not
escape quote characters). Both sources are collected. -/

def isDigitCh (c : Char) : Bool := (digitVal c).isSome

def scanPre : List Char := "data-visual-id=\"el-".data

/-- Occurrences of the scan pattern inside one text node's verbatim text. -/
def textIdsAux : Nat → List Char → List Nat
  | 0, _ => []
  | fuel + 1, s =>
    match splitFirst scanPre s with
    | none => []
    | some (_, rest) =>
      let ds := rest.takeWhile isDigitCh
      let rest2 := rest.drop ds.length
      match ds, rest2 with
      | [], _ => textIdsAux fuel rest
      | _ :: _, '"' :: rest3 =>
        match decDigits ds with
        | some v => v :: textIdsAux fuel rest3
        | none => textIdsAux fuel rest
      | _ :: _, _ => textIdsAux fuel rest

def textIds (s : String) : List Nat := textIdsAux s.data.length s.data

mutual
/-- All numbers matched by the id-scan regex over the serialized tree:
marker attributes of exact `el-<digits>` shape, plus pattern occurrences in
text content. -/
def scanIdsE : Elem → List Nat
  | .mk m _ _ t cs =>
    (match m with
      | some v => (parseElId v).toList
      | none => []) ++
    (match t with
      | some tx => textIds tx
      | none => []) ++ scanIdsL cs

def scanIdsL : List Elem → List Nat
  | [] => []
  | e :: es => scanIdsE e ++ scanIdsL es
end

/-! ## Archive processor (`processZipFile`, `src/utils/colorUtils.ts`)

A ZIP entry is modelled by its path, directory flag, and the content the
extraction step would produce for it: the parsed tree for HTML text, the
decoded text for other text entries, and the object-URL string for binary
entries (`URL.createObjectURL` output is an opaque string). Entries are
processed in archive entry order, matching the sequential semantics the
specification ascribes to the extraction loop. -/

inductive FType where
  | html | css | js | image | other
deriving DecidableEq

inductive SContent where
  | doc (e : Elem)
  | raw (s : String)

/-- One file of a Project (path, classification, content). -/
structure PFile where
  path : String
  ftype : FType
  content : SContent

/-- Project data reachable from a `Project` value. The random
`proj-<timestamp>-<random>` id is omitted (its generator draws from
`Math.random`, an external entropy source no claim depends on);
`Date.now()` timestamps are logical-clock values. -/
structure PContent where
  name : String
  files : List PFile
  rootHtmlPath : String
  modifiedAt : Nat
  totalSize : Nat

structure FileMeta where
  name : String
  size : Nat

def MAX_FILE_SIZE : Nat := 50 * 1024 * 1024

def MAX_FILES_COUNT : Nat := 500

def strEndsWith (suf s : String) : Bool := List.isSuffixOf suf.data s.data

def lcs (l : List Char) : List Char := l.map Char.toLower

inductive ValidationResult where
  | valid
  | invalid (msg : String)
deriving DecidableEq

/-- The `validateFile` checks, in source order: size bound, `.zip` extension,
non-empty. The size-error message interpolates `formatFileSize` (a
floating-point display helper) and is abbreviated here; no claim reads it. -/
def validateFile (f : FileMeta) : ValidationResult :=
  if MAX_FILE_SIZE < f.size then .invalid "File size exceeds maximum allowed"
  else if strEndsWith ".zip" f.name = false then
    .invalid "Please upload a ZIP file (.zip extension required)"
  else if f.size = 0 then .invalid "File is empty"
  else .valid

structure ZEntry where
  path : String
  isDir : Bool
  data : SContent

/-- Last `.`-separated component of a path, as `path.split('.').pop()`. -/
def lastSeg (cur : List Char) : List Char → List Char
  | [] => cur
  | c :: cs => if c = '.' then lastSeg [] cs else lastSeg (cur ++ [c]) cs

def getFileType (path : String) : FType :=
  let ext := String.mk (lcs (lastSeg [] path.data))
  if ext = "html" ∨ ext = "htm" then .html
  else if ext = "css" then .css
  else if ext = "js" ∨ ext = "jsx" ∨ ext = "ts" ∨ ext = "tsx" then .js
  else if ext = "png" ∨ ext = "jpg" ∨ ext = "jpeg" ∨ ext = "gif" ∨ ext = "svg" ∨
      ext = "webp" ∨ ext = "ico" then .image
  else .other

def isDangerousPath (p : String) : Bool :=
  let lower := String.mk (lcs p.data)
  strEndsWith ".exe" lower || strEndsWith ".dll" lower || strEndsWith ".bat" lower ||
    strEndsWith ".sh" lower || containsSub "__MACOSX".data lower.data

def isWsCh (c : Char) : Bool := c = ' ' ∨ c = '\t' ∨ c = '\n' ∨ c = '\r'

def isNameAllowed (c : Char) : Bool := c.isAlpha || c.isDigit || c = '-' || c = '_' || isWsCh c

def sanitizeProjectName (name : String) : String :=
  let kept := name.data.filter isNameAllowed
  let trimmed := ((kept.dropWhile isWsCh).reverse.dropWhile isWsCh).reverse
  let cut := trimmed.take 50
  if cut.isEmpty then "Untitled Project" else String.mk cut

/-- Case-insensitive strip of the trailing `.zip` (`name.replace(/\.zip$/i, '')`). -/
def stripZipExt (s : String) : String :=
  if List.isSuffixOf ".zip".data (lcs s.data) then
    String.mk (s.data.take (s.data.length - 4))
  else s

/-- Root-candidate test applied inside the extraction loop:
`relativePath.toLowerCase().endsWith('index.html') || !relativePath.includes('/')`. -/
def rootCand (p : String) : Bool :=
  strEndsWith "index.html" (String.mk (lcs p.data)) || !(p.data.contains '/')

/-- Root-path assignment performed during the extraction loop: the first
HTML-classified entry satisfying `rootCand` wins (`if (type === 'html' &&
!rootHtmlPath)`). -/
def selectRootDuring (files : List PFile) : Option String :=
  files.foldl (fun acc f =>
    match acc with
    | some r => some r
    | none =>
      if f.ftype = FType.html ∧ rootCand f.path = true then some f.path else none) none

/-- One step of the shared-counter id injection over the project's files
(the `files.map` with the `globalIdCounter` closure): HTML files get ids
injected starting at the current counter, then the counter jumps above the
maximum scanned id; other files pass through. An HTML-classified file whose
content is not parsed HTML does not occur (extraction always parses HTML
text into a tree). -/
def injectStep (acc : List PFile × Nat) (f : PFile) : List PFile × Nat :=
  match f.ftype, f.content with
  | .html, .doc e =>
    let e2 := (addIdsE e acc.2).1
    let ids := scanIdsE e2
    let c2 := match ids.max? with
      | some m => m + 1
      | none => acc.2
    (acc.1 ++ [⟨f.path, FType.html, .doc e2⟩], c2)
  | _, _ => (acc.1 ++ [f], acc.2)

def injectIds (files : List PFile) : List PFile := (files.foldl injectStep ([], 0)).1

inductive ZResult where
  | ok (project : PContent)
  | err (msg : String)

/-- The count-limit error message, interpolated exactly as in the source:
`ZIP contains too many files (${n}). Maximum allowed: ${MAX_FILES_COUNT}`. -/
def tooManyMsg (n : Nat) : String :=
  "ZIP contains too many files (" ++ String.mk (natDigits n) ++
    "). Maximum allowed: " ++ String.mk (natDigits MAX_FILES_COUNT)

/-- Root selection with fallback: the in-loop assignment, then (when it
assigned nothing and some HTML file exists) the first HTML file in order
(`files.find(f => f.type === 'html')`), else no root at all. -/
def rootChoice (files : List PFile) : Option String :=
  match selectRootDuring files with
  | some r => some r
  | none => (files.find? (fun f => decide (f.ftype = FType.html))).map (fun f => f.path)

/-- `processZipFile` (`src/utils/colorUtils.ts`): validation, non-directory
entry collection, entry-count limit, dangerous-extension denylist,
extraction, root-HTML selection with fallback, and shared-counter id
injection, in source order. -/
def processZip (meta : FileMeta) (entries : List ZEntry) : ZResult :=
  match validateFile meta with
  | .invalid msg => .err msg
  | .valid =>
    if MAX_FILES_COUNT < (entries.filter (fun e => !e.isDir)).length then
      .err (tooManyMsg (entries.filter (fun e => !e.isDir)).length)
    else if ((entries.filter (fun e => !e.isDir)).filter
        (fun e => isDangerousPath e.path)).isEmpty = false then
      .err ("ZIP contains unsupported file types. Please remove: " ++
        String.intercalate ", "
          (((entries.filter (fun e => !e.isDir)).filter
            (fun e => isDangerousPath e.path)).map (fun e => e.path)))
    else
      match rootChoice ((entries.filter (fun e => !e.isDir)).map
          (fun e => ⟨e.path, getFileType e.path, e.data⟩)) with
      | none => .err "No HTML file found in the ZIP archive. Please include at least one HTML file."
      | some root =>
        .ok ⟨sanitizeProjectName (stripZipExt meta.name),
          injectIds ((entries.filter (fun e => !e.isDir)).map
            (fun e => ⟨e.path, getFileType e.path, e.data⟩)),
          root, 0, meta.size⟩

/-! ## Editor store (`src/store/editorStore.ts`)

The zustand store is a single-threaded state machine. Mutable aliasing is
tracked by `region`: a `Project` value's object graph lies in the listed heap
regions. `JSON.parse(JSON.stringify(p))` yields a fresh single region; an
object spread (`{...current, files: ...}`) allocates a fresh top-level object
but shares the old value's regions, so its region list extends the old one.
An in-place mutation of a value rewrites every stored value whose regions
intersect it (`opMutateLive`). -/

structure Project where
  content : PContent
  region : List Nat

/-- One undo/redo checkpoint: deep-copied project, selection, timestamp, label. -/
structure HistoryEntry where
  project : Project
  selectedElementId : Option String
  timestamp : Nat
  label : String

/-- The store state. `selectedElementData` is only ever set wholesale or
cleared by the claims at issue, so its payload is abstracted to `Unit`.
Canvas pan/zoom state and the active tool are omitted: no modelled operation
reads or writes them together with the project or the history. `pending`
holds the debouncer's scheduled label (`pendingAction` closure plus timer);
`fresh` is the allocation counter for heap regions; `clock` models
`Date.now()`. -/
structure EState where
  currentProject : Option Project
  isLoading : Bool
  error : Option String
  selectedElementId : Option String
  hoveredElementId : Option String
  selectedElementData : Option Unit
  history : List HistoryEntry
  historyIndex : Int
  isHistoryEnabled : Bool
  lastHistorySave : Nat
  activeBatch : Option String
  batchCommands : List Unit
  pending : Option (Option String)
  fresh : Nat
  clock : Nat

def initState : EState :=
  { currentProject := none, isLoading := false, error := none,
    selectedElementId := none, hoveredElementId := none,
    selectedElementData := none, history := [], historyIndex := -1,
    isHistoryEnabled := true, lastHistorySave := 0, activeBatch := none,
    batchCommands := [], pending := none, fresh := 0, clock := 0 }

/-- `label || 'Edit'` on the optional label (empty string is falsy in JS). -/
def labelOrEdit : Option String → String
  | some l => if l = "" then "Edit" else l
  | none => "Edit"

/-- Updates payload of `updateElement` (the used fields of `Partial<ElementData>`). -/
structure ElUpd where
  styles : Option (List (String × String))
  textContent : Option String
  attributes : Option (List (String × String))

/-- `style.setProperty` / `setAttribute`: update in place or append. -/
def upsert (k v : String) (l : List (String × String)) : List (String × String) :=
  if l.any (fun p => p.1 = k) then l.map (fun p => if p.1 = k then (k, v) else p)
  else l ++ [(k, v)]

def upsertAll (us : List (String × String)) (l : List (String × String)) :
    List (String × String) :=
  us.foldl (fun acc p => upsert p.1 p.2 acc) l

/-- Apply an `updateElement` payload to a matched node: set each style
property, assign `textContent` (which in the DOM replaces all children by a
single text node), set each attribute. -/
def applyUpd (u : ElUpd) : Elem → Elem
  | .mk m st at2 tx cs =>
    let st2 := match u.styles with
      | some us => upsertAll us st
      | none => st
    let tc : Option String × List Elem := match u.textContent with
      | some t => (some t, [])
      | none => (tx, cs)
    let at3 := match u.attributes with
      | some as2 => upsertAll as2 at2
      | none => at2
    .mk m st2 at3 tc.1 tc.2

mutual
/-- Locate and update the first node in document (pre-)order whose marker
equals the selector id (`doc.querySelector('[data-visual-id="..."]')`);
returns whether a node matched. -/
def updFirstE (eid : String) (u : ElUpd) : Elem → Elem × Bool
  | .mk m st at2 tx cs =>
    if m = some eid then (applyUpd u (.mk m st at2 tx cs), true)
    else
      let r := updFirstL eid u cs
      (.mk m st at2 tx r.1, r.2)

def updFirstL (eid : String) (u : ElUpd) : List Elem → List Elem × Bool
  | [] => ([], false)
  | e :: es =>
    let p := updFirstE eid u e
    if p.2 then (p.1 :: es, true)
    else
      let q := updFirstL eid u es
      (e :: q.1, q.2)
end

/-- Per-file step of `updateElement`: parse an HTML file, locate the element,
apply updates and reserialize; files without the element (and non-HTML files)
are returned unchanged. -/
def updateFileU (eid : String) (u : ElUpd) (f : PFile) : PFile :=
  match f.ftype, f.content with
  | FType.html, .doc e =>
    let r := updFirstE eid u e
    if r.2 then ⟨f.path, FType.html, .doc r.1⟩ else f
  | _, _ => f

/-! The store actions, one function per action. -/

def opSetProject (c : PContent) (s : EState) : EState :=
  let entry : HistoryEntry := ⟨⟨c, [s.fresh]⟩, none, s.clock, "Initial state"⟩
  { s with
    pending := none,
    currentProject := some ⟨c, [s.fresh + 1]⟩,
    history := [entry],
    historyIndex := 0,
    selectedElementId := none,
    selectedElementData := none,
    error := none,
    lastHistorySave := s.clock,
    fresh := s.fresh + 2 }

def opUpdateProject (g : PContent → PContent) (s : EState) : EState :=
  match s.currentProject with
  | none => s
  | some cur =>
    { s with currentProject := some ⟨g cur.content, [s.fresh]⟩, fresh := s.fresh + 1 }

def opUpdateElement (eid : String) (u : ElUpd) (s : EState) : EState :=
  match s.currentProject with
  | none => s
  | some cur =>
    let newFiles := cur.content.files.map (updateFileU eid u)
    { s with
      currentProject := some
        ⟨⟨cur.content.name, newFiles, cur.content.rootHtmlPath, s.clock,
          cur.content.totalSize⟩, s.fresh :: cur.region⟩,
      fresh := s.fresh + 1 }

def opSetCurrentPage (p : String) (s : EState) : EState :=
  match s.currentProject with
  | none => s
  | some cur =>
    { s with
      currentProject := some
        ⟨⟨cur.content.name, cur.content.files, p, s.clock, cur.content.totalSize⟩,
          s.fresh :: cur.region⟩,
      selectedElementId := none,
      selectedElementData := none,
      fresh := s.fresh + 1 }

def opSelectElement (i : Option String) (s : EState) : EState :=
  { s with selectedElementId := i, selectedElementData := none }

def opHoverElement (i : Option String) (s : EState) : EState :=
  { s with hoveredElementId := i }

def opSetElementData (d : Option Unit) (s : EState) : EState :=
  { s with selectedElementData := d }

/-- The new `HistoryEntry` built by `saveToHistory`: a deep copy of the
current Project (fresh region), current selection, timestamp, label. -/
def saveEntry (label : Option String) (s : EState) (cur : Project) : HistoryEntry :=
  ⟨⟨cur.content, [s.fresh]⟩, s.selectedElementId, s.clock, labelOrEdit label⟩

/-- `history.slice(0, historyIndex + 1)` — discard the redo branch. -/
def truncHistory (s : EState) : List HistoryEntry :=
  s.history.take (s.historyIndex + 1).toNat

/-- Truncate, push the new entry, and on exceeding 50 entries shift off the
oldest. -/
def savedHistory (label : Option String) (s : EState) (cur : Project) : List HistoryEntry :=
  if 50 < (truncHistory s ++ [saveEntry label s cur]).length
  then (truncHistory s ++ [saveEntry label s cur]).drop 1
  else truncHistory s ++ [saveEntry label s cur]

/-- `newIndex = newHistory.length - 1`, adjusted down by one (clamped at 0)
when the overflow shift happened. -/
def savedIndex (label : Option String) (s : EState) (cur : Project) : Int :=
  if 50 < (truncHistory s ++ [saveEntry label s cur]).length
  then max 0 (((truncHistory s ++ [saveEntry label s cur]).length : Int) - 1 - 1)
  else ((truncHistory s ++ [saveEntry label s cur]).length : Int) - 1

def opSaveToHistory (label : Option String) (s : EState) : EState :=
  match s.currentProject with
  | none => s
  | some cur =>
    if s.isHistoryEnabled = false then s
    else
      { s with
        pending := none,
        history := savedHistory label s cur,
        historyIndex := savedIndex label s cur,
        lastHistorySave := s.clock,
        fresh := s.fresh + 1 }

def opDebouncedSave (label : Option String) (s : EState) : EState :=
  match s.currentProject with
  | none => s
  | some _ => if s.isHistoryEnabled = false then s else { s with pending := some label }

/-- `flushHistory` / the debouncer timer firing: run the scheduled
`saveToHistory(label)` against the state at flush time, then clear the
pending action. -/
def opFlushHistory (s : EState) : EState :=
  match s.pending with
  | none => s
  | some l => { opSaveToHistory l s with pending := none }

def opUndo (s : EState) : EState :=
  let s1 := opFlushHistory s
  if 0 < s1.historyIndex then
    match s1.history[(s1.historyIndex - 1).toNat]? with
    | some entry =>
      { s1 with
        currentProject := some ⟨entry.project.content, [s1.fresh]⟩,
        selectedElementId := entry.selectedElementId,
        historyIndex := s1.historyIndex - 1,
        fresh := s1.fresh + 1 }
    | none => s1
  else s1

def opRedo (s : EState) : EState :=
  let s1 := opFlushHistory s
  if s1.historyIndex < (s1.history.length : Int) - 1 then
    match s1.history[(s1.historyIndex + 1).toNat]? with
    | some entry =>
      { s1 with
        currentProject := some ⟨entry.project.content, [s1.fresh]⟩,
        selectedElementId := entry.selectedElementId,
        historyIndex := s1.historyIndex + 1,
        fresh := s1.fresh + 1 }
    | none => s1
  else s1

def canUndo (s : EState) : Bool :=
  s.isHistoryEnabled && decide (0 < s.historyIndex)

def canRedo (s : EState) : Bool :=
  s.isHistoryEnabled && decide (s.historyIndex < (s.history.length : Int) - 1)

def opClearHistory (s : EState) : EState :=
  match s.currentProject with
  | none => { s with pending := none }
  | some cur =>
    { s with
      pending := none,
      history := [⟨⟨cur.content, [s.fresh]⟩, none, s.clock, "Cleared"⟩],
      historyIndex := 0,
      fresh := s.fresh + 1 }

def opStartBatch (l : String) (s : EState) : EState :=
  { s with activeBatch := some l, batchCommands := [] }

/-- `endBatch` commits once only when the batch label is truthy and
`batchCommands` is nonempty; it then clears the batch fields. -/
def opEndBatch (s : EState) : EState :=
  let s1 := match s.activeBatch with
    | some l =>
      if l ≠ "" ∧ s.batchCommands ≠ [] then opSaveToHistory (some l) s else s
    | none => s
  { s1 with activeBatch := none, batchCommands := [] }

def opCancelBatch (s : EState) : EState :=
  match s.activeBatch with
  | some l =>
    if l ≠ "" ∧ 0 ≤ s.historyIndex then
      match s.history[s.historyIndex.toNat]? with
      | some entry =>
        { s with
          currentProject := some ⟨entry.project.content, [s.fresh]⟩,
          activeBatch := none, batchCommands := [], fresh := s.fresh + 1 }
      | none => s
    else s
  | none => s

def opSetHistoryEnabled (b : Bool) (s : EState) : EState :=
  { s with isHistoryEnabled := b }

def opSetLoading (b : Bool) (s : EState) : EState :=
  { s with isLoading := b }

def opSetError (e : Option String) (s : EState) : EState :=
  { s with error := e, isLoading := false }

def opClearError (s : EState) : EState :=
  { s with error := none }

/-- An external in-place mutation of the live Project's object graph:
every stored value whose regions intersect the live value's regions is
rewritten by it; values in disjoint regions are untouched. -/
def opMutateLive (g : PContent → PContent) (s : EState) : EState :=
  match s.currentProject with
  | none => s
  | some cur =>
    { s with
      currentProject := some ⟨g cur.content, cur.region⟩,
      history := s.history.map (fun e =>
        if e.project.region.any (fun k => cur.region.contains k) then
          { e with project := ⟨g e.project.content, e.project.region⟩ }
        else e) }

/-- The store operations (canvas/tool setters excluded: they touch neither
the Project nor the history). `mutateLive` models external in-place mutation
of the live Project after the store has handed it out. -/
inductive Op where
  | setProject (c : PContent)
  | updateProject (g : PContent → PContent)
  | updateElement (eid : String) (u : ElUpd)
  | setCurrentPage (p : String)
  | selectElement (i : Option String)
  | hoverElement (i : Option String)
  | setElementData (d : Option Unit)
  | saveToHistory (label : Option String)
  | debouncedSave (label : Option String)
  | flushHistory
  | undo
  | redo
  | clearHistory
  | startBatch (l : String)
  | endBatch
  | cancelBatch
  | setHistoryEnabled (b : Bool)
  | setLoading (b : Bool)
  | setError (e : Option String)
  | clearError
  | mutateLive (g : PContent → PContent)

def step : Op → EState → EState
  | .setProject c => opSetProject c
  | .updateProject g => opUpdateProject g
  | .updateElement eid u => opUpdateElement eid u
  | .setCurrentPage p => opSetCurrentPage p
  | .selectElement i => opSelectElement i
  | .hoverElement i => opHoverElement i
  | .setElementData d => opSetElementData d
  | .saveToHistory l => opSaveToHistory l
  | .debouncedSave l => opDebouncedSave l
  | .flushHistory => opFlushHistory
  | .undo => opUndo
  | .redo => opRedo
  | .clearHistory => opClearHistory
  | .startBatch l => opStartBatch l
  | .endBatch => opEndBatch
  | .cancelBatch => opCancelBatch
  | .setHistoryEnabled b => opSetHistoryEnabled b
  | .setLoading b => opSetLoading b
  | .setError e => opSetError e
  | .clearError => opClearError
  | .mutateLive g => opMutateLive g

def run (ops : List Op) (s : EState) : EState :=
  ops.foldl (fun t o => step o t) s

/-- Heap regions of the live Project (empty when no project is loaded). -/
def liveRegions (s : EState) : List Nat :=
  match s.currentProject with
  | some p => p.region
  | none => []

/-- Upload handler (`handleFile` in `FileUpload.tsx`) applied to a processing
result: `setLoading(true)`, then install the project on success or
`setError(result.error || 'Failed to process ZIP file')` on failure, then
`setLoading(false)` in the `finally` block. -/
def handleResult (r : ZResult) (s : EState) : EState :=
  let s1 := opSetLoading true s
  let s2 := match r with
    | .ok c => opSetProject c s1
    | .err m => opSetError (some (if m = "" then "Failed to process ZIP file" else m)) s1
  opSetLoading false s2

/-! ## Document assembler and export assembler
(`buildHtmlDocument`, `createZipFromProject`)

These operate on serialized file contents, modelled as `List Char`. -/

structure XFile where
  path : List Char
  ftype : FType
  content : List Char

structure XProject where
  files : List XFile
  rootHtmlPath : List Char

def headClose : List Char := "</head>".data

def openTag : List Char := "<style data-injected=\"true\">".data

def closeTag : List Char := "</style>".data

def linkLit : List Char := "<link".data

/-- Expansion of `$`-patterns in a `String.prototype.replace` replacement
string (`$$`, `$&`, dollar-backquote for the preceding text,
dollar-apostrophe for the following text; anything else is literal). -/
def expandRepl (matched pre suf : List Char) : List Char → List Char
  | [] => []
  | c :: cs =>
    if c = '$' then
      match cs with
      | d :: cs2 =>
        if d = '$' then '$' :: expandRepl matched pre suf cs2
        else if d = '&' then matched ++ expandRepl matched pre suf cs2
        else if d = Char.ofNat 96 then pre ++ expandRepl matched pre suf cs2
        else if d = Char.ofNat 39 then suf ++ expandRepl matched pre suf cs2
        else c :: d :: expandRepl matched pre suf cs2
      | [] => [c]
    else c :: expandRepl matched pre suf cs

/-- `html.replace(pat, repl)` with a string pattern: replace the first
occurrence, expanding `$`-patterns in the replacement. -/
def replaceFirst (pat repl s : List Char) : List Char :=
  match splitFirst pat s with
  | none => s
  | some (a, b) => a ++ expandRepl pat a b repl ++ b

/-- `path.split('/').pop()`. -/
def basenameAux (cur : List Char) : List Char → List Char
  | [] => cur
  | c :: cs => if c = '/' then basenameAux [] cs else basenameAux (cur ++ [c]) cs

def basename (p : List Char) : List Char := basenameAux [] p

def hrefNeedle (p : List Char) : List Char := "href=\"".data ++ p ++ "\"".data

/-- The injected style block: `<style data-injected="true">\n/* ${path} */\n${content}\n</style>`. -/
def styleTagFor (f : XFile) : List Char :=
  openTag ++ "\n/* ".data ++ f.path ++ " */\n".data ++ f.content ++ "\n".data ++ closeTag

def ciPrefix (pat s : List Char) : Bool :=
  List.isPrefixOf (lcs pat) (lcs (s.take pat.length))

/-- Good-faith model of the global case-insensitive link-inlining regex
replace (`<link[^>]*href=["'][^"']*path["'][^>]*>` to an inline style
block). The browser RegExp engine is an external collaborator; its
backtracking is approximated: a case-insensitive `<link` occurrence opens a
candidate segment running to the next `>`, which is replaced when it
mentions `href=` and the file's path. On strings with no case-insensitive
`<link` occurrence — the only case exercised by the claims — the function is
the identity, exactly as the regex is. -/
def linkGo : Nat → XFile → List Char → List Char
  | 0, _, s => s
  | fuel + 1, cf, s =>
    match s with
    | [] => []
    | c :: cs =>
      if ciPrefix linkLit s then
        match splitFirst ['>'] s with
        | some (seg, rest) =>
          if containsSub "href=".data seg && containsSub cf.path seg then
            "<style>".data ++ cf.content ++ "</style>".data ++ linkGo fuel cf rest
          else c :: linkGo fuel cf cs
        | none => c :: linkGo fuel cf cs
      else c :: linkGo fuel cf cs

def linkReplaceAll (cf : XFile) (s : List Char) : List Char := linkGo s.length cf s

/-- `buildHtmlDocument`: find the root HTML file; inject a marker-tagged
style block before the first `</head>` for every CSS file not already
referenced by an `href="path"` / `href="basename"` occurrence; then inline
`<link>` tags referencing project CSS files. Pure in the Project. -/
def buildHtmlDocument (p : XProject) : List Char :=
  match p.files.find? (fun f => decide (f.path = p.rootHtmlPath)) with
  | none => []
  | some hf =>
    let cssFiles := p.files.filter (fun f => decide (f.ftype = FType.css))
    let h1 := cssFiles.foldl (fun html cf =>
      if containsSub (hrefNeedle cf.path) html = false ∧
          containsSub (hrefNeedle (basename cf.path)) html = false then
        replaceFirst headClose (styleTagFor cf ++ '\n' :: headClose) html
      else html) hf.content
    cssFiles.foldl (fun html cf => linkReplaceAll cf html) h1

/-- The export-side strip
(`content.replace(/<style data-injected="true">[\s\S]*?<\/style>\n?/g, '')`):
repeatedly delete from the leftmost occurrence of the marker open tag
through the nearest following `</style>` plus one optional newline,
continuing after the deleted span. Fuel-driven; seeded with the string
length the fuel never runs out, as each round consumes the nonempty match. -/
def stripGo : Nat → List Char → List Char
  | 0, s => s
  | fuel + 1, s =>
    match splitFirst openTag s with
    | none => s
    | some (pre, rest) =>
      match splitFirst closeTag rest with
      | none => s
      | some (_, rest2) =>
        let rest3 := match rest2 with
          | '\n' :: r => r
          | r => r
        pre ++ stripGo fuel rest3

def stripInjected (s : List Char) : List Char := stripGo s.length s

/-- Per-file content written by `createZipFromProject`: HTML files get the
injected style blocks stripped, all other files are written unchanged. -/
def exportContent (f : XFile) : List Char :=
  if f.ftype = FType.html then stripInjected f.content else f.content

def exportFiles (p : XProject) : List (List Char × List Char) :=
  p.files.map (fun f => (f.path, exportContent f))

/-! ## Claim-level observations and concrete fixtures -/

def rootOf : ZResult → Option String
  | .ok c => some c.rootHtmlPath
  | .err _ => none

/-- Root selection described by the (corrected) specification sentence: the
first HTML entry, in entry order, whose lowercased path ends in `index.html`
or which sits at the top level; otherwise the first HTML entry in entry
order. -/
def specRootChoice (paths : List String) : Option String :=
  match paths.find? (fun p => decide (getFileType p = FType.html ∧ rootCand p = true)) with
  | some p => some p
  | none => paths.find? (fun p => decide (getFileType p = FType.html))

def rootAgreesSpec (entries : List ZEntry) : ZResult → Prop
  | .ok c => some c.rootHtmlPath =
      specRootChoice ((entries.filter (fun e => !e.isDir)).map (fun e => e.path))
  | .err _ => True

def fileMarkers (f : PFile) : List String :=
  match f.content with
  | .doc e => markersE e
  | .raw _ => []

def allProjectMarkers (files : List PFile) : List String :=
  files.foldr (fun f acc => fileMarkers f ++ acc) []

/-- Well-formed, marker-free entry: HTML-classified entries carry parsed
trees with no pre-existing `data-visual-id` attribute; other entries carry
text/blob-URL strings (what extraction produces for them). -/
def entryOkFree (e : ZEntry) : Bool :=
  match getFileType e.path, e.data with
  | FType.html, .doc t => markerFreeE t
  | FType.html, .raw _ => false
  | _, .raw _ => true
  | _, .doc _ => false

def projMarkersNodup : ZResult → Prop
  | .ok c => (allProjectMarkers c.files).Nodup
  | .err _ => True

def markersOfResult : ZResult → List String
  | .ok c => allProjectMarkers c.files
  | .err _ => []

def leafE : Elem := .mk none [] [] none []

def metaZip : FileMeta := ⟨"site.zip", 100⟩

def entriesC5 : List ZEntry :=
  [⟨"page.html", false, .doc leafE⟩, ⟨"sub/index.html", false, .doc leafE⟩]

def treeC6 : Elem := .mk none [] [] none [.mk none [] [] none [], .mk (some "el-1") [] [] none []]

def entriesC6 : List ZEntry := [⟨"index.html", false, .doc treeC6⟩]

def entriesC9 : List ZEntry := List.replicate 501 ⟨"a.txt", false, .raw ""⟩

def treeC7 : Elem := .mk (some "el-0") [] [] none [.mk (some "el-1") [] [] none []]

/-! ## Theorems: archive processor claims -/

def metaC9 : FileMeta := ⟨"big.zip", 10⟩

/-- Per-file form of `entryOkFree` for the files built by extraction. -/
def fileOkFree (f : PFile) : Bool :=
  match f.ftype, f.content with
  | FType.html, .doc t => markerFreeE t
  | FType.html, .raw _ => false
  | _, .raw _ => true
  | _, .doc _ => false

/-- Invariant carried through the shared-counter injection fold: the markers
collected so far are generated identifiers below the counter, without
duplicates. -/
def GoodSt (st : List PFile × Nat) : Prop :=
  ∃ S : List Nat, allProjectMarkers st.1 = S.map elStr ∧ S.Nodup ∧ ∀ x ∈ S, x < st.2

/-- The seven C9 conclusions: the count-limited archive is rejected with the
exact interpolated message, that message states the maximum entry count, and
the upload handler leaves the project, the history and the cursor untouched,
records the message as the displayed error, and clears the loading flag. -/
def C9Concl (meta : FileMeta) (entries : List ZEntry) (s : EState) : Prop :=
  processZip meta entries = .err (tooManyMsg (entries.filter (fun e => !e.isDir)).length) ∧
  (∃ pre, tooManyMsg (entries.filter (fun e => !e.isDir)).length = pre ++ "500") ∧
  (handleResult (processZip meta entries) s).currentProject = s.currentProject ∧
  (handleResult (processZip meta entries) s).history = s.history ∧
  (handleResult (processZip meta entries) s).historyIndex = s.historyIndex ∧
  (handleResult (processZip meta entries) s).error =
    some (tooManyMsg (entries.filter (fun e => !e.isDir)).length) ∧
  (handleResult (processZip meta entries) s).isLoading = false

mutual
/-- Styles currently on the first node carrying the given marker (an
observation used to exhibit that a Project mutation really happened). -/
def findStylesE (eid : String) : Elem → Option (List (String × String))
  | .mk m st _ _ cs => if m = some eid then some st else findStylesL eid cs

def findStylesL (eid : String) : List Elem → Option (List (String × String))
  | [] => none
  | e :: es =>
    match findStylesE eid e with
    | some r => some r
    | none => findStylesL eid es
end

def obsStyles (eid : String) (s : EState) : Option (List (String × String)) :=
  match s.currentProject with
  | none => none
  | some cur =>
    cur.content.files.findSome? (fun f =>
      match f.content with
      | .doc e => findStylesE eid e
      | .raw _ => none)

def treeC4 : Elem := .mk (some "el-0") [] [] none [.mk (some "el-1") [] [] none []]

def contentC4 : PContent :=
  ⟨"proj", [⟨"index.html", FType.html, .doc treeC4⟩], "index.html", 0, 10⟩

def updC4 : ElUpd := ⟨some [("color", "red")], none, none⟩

/-- The C4 failing input: open a batch, mutate the Project through
`updateElement`, close the batch. -/
def opsC4 : List Op :=
  [.setProject contentC4, .startBatch "Move elements",
   .updateElement "el-1" updC4, .endBatch]

/-- The C10 conclusions, at a start state `s`, uploaded project data `c`, a
first edit `g` and a commit label `lbl`. -/
def C10Concl (s : EState) (c : PContent) (g : PContent → PContent)
    (lbl : Option String) : Prop :=
  (opSetProject c s).history.map
      (fun e => (e.project.content, e.selectedElementId, e.label)) =
    [(c, none, "Initial state")] ∧
  (opSetProject c s).historyIndex = 0 ∧
  (opSetProject c s).selectedElementId = none ∧
  (opSetProject c s).selectedElementData = none ∧
  (opSetProject c s).error = none ∧
  canUndo (opSetProject c s) = false ∧
  (∀ e ∈ (opSetProject c s).history, ∀ k ∈ e.project.region,
    k ∉ liveRegions (opSetProject c s)) ∧
  (opUndo (opSaveToHistory lbl (opUpdateProject g (opSetProject c s)))).currentProject.map
    (fun p => p.content) = some c ∧
  (opUndo (opSaveToHistory lbl (opUpdateProject g (opSetProject c s)))).historyIndex = 0

/-! ## Theorems: editor store claims -/

/-- No history entry shares any heap region with the live Project. -/
def entriesDisjointLive (s : EState) : Prop :=
  ∀ e ∈ s.history, ∀ k ∈ e.project.region, k ∉ liveRegions s

/-- Induction invariant for C1: disjointness plus freshness bounds on every
stored region. -/
def InvC1 (s : EState) : Prop :=
  entriesDisjointLive s ∧
  (∀ e ∈ s.history, ∀ k ∈ e.project.region, k < s.fresh) ∧
  (∀ k ∈ liveRegions s, k < s.fresh)

/-- The invariant as a function of the three relevant components. -/
def InvParts (hist : List HistoryEntry) (live : List Nat) (fresh : Nat) : Prop :=
  (∀ e ∈ hist, ∀ k ∈ e.project.region, k ∉ live) ∧
  (∀ e ∈ hist, ∀ k ∈ e.project.region, k < fresh) ∧
  (∀ k ∈ live, k < fresh)

/-! ## C2: history bound after many commits

A "commit" is `updateProject` (give the live project fresh content) followed
by `saveToHistory()`; `commitOps f n` is the operation list for `n` such
commits and `commitState` the store reached from a freshly loaded project. -/

def commitOps (f : Nat → PContent) : Nat → List Op
  | 0 => []
  | n + 1 => commitOps f n ++ [Op.updateProject (fun _ => f n), Op.saveToHistory none]

def commitState (c0 : PContent) (f : Nat → PContent) (n : Nat) : EState :=
  run (commitOps f n) (opSetProject c0 initState)

/-- The history entry recorded by the `i`-th commit (0-based). -/
def entC2 (f : Nat → PContent) (i : Nat) : HistoryEntry :=
  ⟨⟨f i, [2 * i + 3]⟩, none, 0, "Edit"⟩

/-- The unbounded commit log: the `setProject` checkpoint followed by every
commit's entry. The store retains only its last 50 elements. -/
def fullHist (c0 : PContent) (f : Nat → PContent) (n : Nat) : List HistoryEntry :=
  ⟨⟨c0, [0]⟩, none, 0, "Initial state"⟩ :: (List.range n).map (entC2 f)

def projC2 (c0 : PContent) (f : Nat → PContent) : Nat → Project
  | 0 => ⟨c0, [1]⟩
  | n + 1 => ⟨f n, [2 + 2 * n]⟩

/-- Closed form of the store after `n` commits. -/
def stC2 (c0 : PContent) (f : Nat → PContent) (n : Nat) : EState :=
  { currentProject := some (projC2 c0 f n),
    isLoading := false, error := none, selectedElementId := none,
    hoveredElementId := none, selectedElementData := none,
    history := (fullHist c0 f n).drop (n + 1 - 50),
    historyIndex := min (n : Int) 49,
    isHistoryEnabled := true, lastHistorySave := 0, activeBatch := none,
    batchCommands := [], pending := none, fresh := 2 + 2 * n, clock := 0 }

def undoN : Nat → EState → EState
  | 0, s => s
  | k + 1, s => opUndo (undoN k s)

def cC2fix : PContent := ⟨"p", [], "index.html", 1000, 0⟩

def fC2fix : Nat → PContent := fun i => ⟨"p", [], "index.html", i, 0⟩

def pC3 : Project := ⟨cC2fix, [5]⟩

def stC3 : EState :=
  { currentProject := some pC3, isLoading := false, error := none,
    selectedElementId := none, hoveredElementId := none,
    selectedElementData := none,
    history := [⟨⟨cC2fix, [0]⟩, none, 0, "Initial state"⟩],
    historyIndex := 0, isHistoryEnabled := true, lastHistorySave := 0,
    activeBatch := none, batchCommands := [], pending := some (some "typing"),
    fresh := 7, clock := 3 }

/-! ## C8: assemble/export round trip -/

/-- The injected block as it sits in the assembled document: the style tag
followed by the newline that `buildHtmlDocument` writes before `</head>`. -/
def blockOf (cf : XFile) : List Char := styleTagFor cf ++ ['\n']

def blocksOf : List XFile → List Char
  | [] => []
  | cf :: ds => blockOf cf ++ blocksOf ds

/-- The text of an injected block strictly between its marker open tag and
its closing `</style>`. -/
def midOf (cf : XFile) : List Char :=
  "\n/* ".data ++ cf.path ++ " */\n".data ++ cf.content ++ "\n".data

/-- Hazard freedom for a CSS file's path and content: none of the markup the
assembler and exporter key on occurs in them, and they are free of `$`
(which `String.replace` would expand in the replacement string). -/
def GoodCss (cf : XFile) : Prop :=
  (¬ closeTag <:+: cf.path ∧ ¬ closeTag <:+: cf.content) ∧
  (¬ headClose <:+: cf.path ∧ ¬ headClose <:+: cf.content) ∧
  (¬ lcs linkLit <:+: lcs cf.path ∧ ¬ lcs linkLit <:+: lcs cf.content) ∧
  ('$' ∉ cf.path ∧ '$' ∉ cf.content)

def hfW8 : XFile :=
  ⟨"index.html".data, FType.html, "<html><head></head><body></body></html>".data⟩

def cssW8 : XFile := ⟨"style.css".data, FType.css, "body color red".data⟩

def pW8 : XProject := ⟨[hfW8, cssW8], "index.html".data⟩

/-- A root HTML file that already carries a marker-tagged style block when
uploaded: export then strips content assembly never injected. -/
def hfC8 : XFile :=
  ⟨"index.html".data, FType.html,
    "<head>".data ++ openTag ++ "x".data ++ closeTag ++ "</head>".data⟩

def pC8 : XProject := ⟨[hfC8], "index.html".data⟩

/-! ## Theorems -/

theorem splitFirst_eq (pat l a b : List Char) (h : splitFirst pat l = some (a, b)) :
    l = a ++ pat ++ b := by
  induction l generalizing a b with
  | nil =>
    simp only [splitFirst] at h
    split at h
    · rename_i hp
      simp only [ List.isPrefixOf_iff_prefix] at hp
      obtain ⟨t, ht⟩ := hp
      simp only [Option.some.injEq, Prod.mk.injEq] at h
      obtain ⟨rfl, rfl⟩ := h
      simp at ht ⊢
      simp [← ht]
    · exact absurd h (by simp)
  | cons c cs ih =>
    simp only [splitFirst] at h
    split at h
    · rename_i hp
      simp only [ List.isPrefixOf_iff_prefix] at hp
      simp only [Option.some.injEq, Prod.mk.injEq] at h
      obtain ⟨rfl, rfl⟩ := h
      obtain ⟨t, ht⟩ := hp
      conv_lhs => rw [← ht]
      simp [← ht]
    · revert h
      cases hrec : splitFirst pat cs with
      | none => intro h; exact absurd h (by simp)
      | some ps =>
        obtain ⟨p, s⟩ := ps
        intro h
        simp only [Option.some.injEq, Prod.mk.injEq] at h
        obtain ⟨rfl, rfl⟩ := h
        simp [ih p s hrec]

theorem splitFirst_none_iff (pat l : List Char) :
    splitFirst pat l = none ↔ ¬ pat <:+: l := by
  induction l with
  | nil =>
    simp only [splitFirst]
    constructor
    · intro h hinf
      have : pat = [] := List.eq_nil_of_infix_nil hinf
      subst this
      simp [List.isPrefixOf] at h
    · intro h
      split
      · rename_i hp
        simp only [ List.isPrefixOf_iff_prefix] at hp
        exact absurd hp.isInfix h
      · rfl
  | cons c cs ih =>
    simp only [splitFirst]
    constructor
    · intro h
      split at h
      · exact absurd h (by simp)
      · rename_i hp
        simp only [ List.isPrefixOf_iff_prefix] at hp
        rw [List.infix_cons_iff]
        push_neg
        refine ⟨hp, ?_⟩
        rw [← ih]
        revert h
        cases hrec : splitFirst pat cs with
        | none => intro _; rfl
        | some ps => obtain ⟨p, s⟩ := ps; intro h; exact absurd h (by simp)
    · intro h
      rw [List.infix_cons_iff] at h
      push_neg at h
      obtain ⟨h1, h2⟩ := h
      rw [← List.isPrefixOf_iff_prefix] at h1
      simp only [h1, Bool.false_eq_true, if_false]
      rw [← ih] at h2
      simp [h2]

theorem splitFirst_not_infix_pre (pat l a b : List Char) (hne : pat ≠ [])
    (h : splitFirst pat l = some (a, b)) : ¬ pat <:+: a := by
  induction l generalizing a b with
  | nil =>
    simp only [splitFirst] at h
    split at h
    · simp only [Option.some.injEq, Prod.mk.injEq] at h
      obtain ⟨rfl, rfl⟩ := h
      intro hinf
      exact hne (List.eq_nil_of_infix_nil hinf)
    · exact absurd h (by simp)
  | cons c cs ih =>
    simp only [splitFirst] at h
    split at h
    · simp only [Option.some.injEq, Prod.mk.injEq] at h
      obtain ⟨rfl, rfl⟩ := h
      intro hinf
      exact hne (List.eq_nil_of_infix_nil hinf)
    · rename_i hnp
      revert h
      cases hrec : splitFirst pat cs with
      | none => intro h; exact absurd h (by simp)
      | some ps =>
        obtain ⟨p, s⟩ := ps
        intro h
        simp only [Option.some.injEq, Prod.mk.injEq] at h
        obtain ⟨rfl, rfl⟩ := h
        intro hinf
        rw [List.infix_cons_iff] at hinf
        rcases hinf with hpre | hinf
        · have hcs := splitFirst_eq pat cs p s hrec
          obtain ⟨t, ht⟩ := hpre
          have : pat <+: c :: cs := by
            refine ⟨t ++ pat ++ s, ?_⟩
            rw [hcs]
            calc pat ++ (t ++ pat ++ s) = (pat ++ t) ++ (pat ++ s) := by
                  simp [List.append_assoc]
              _ = c :: (p ++ pat ++ s) := by rw [ht]; simp
          rw [← List.isPrefixOf_iff_prefix] at this
          simp [this] at hnp
        · exact ih p s hrec hinf

theorem prefix_head_eq {p y : List Char} (h : p <+: y) (hne : p ≠ []) :
    y.head? = p.head? := by
  obtain ⟨t, rfl⟩ := h
  cases p with
  | nil => exact absurd rfl hne
  | cons c cs => simp

theorem suffix_getLast_eq {s x : List Char} (h : s <:+ x) (hne : s ≠ []) :
    x.getLast? = s.getLast? := by
  obtain ⟨t, rfl⟩ := h
  rw [List.getLast?_append_of_ne_nil]
  exact hne

theorem prefix_of_prefix_append {pat x y : List Char} (h : pat <+: x ++ y)
    (hlen : pat.length ≤ x.length) : pat <+: x := by
  rw [List.prefix_iff_eq_take] at h
  have h2 : pat = x.take pat.length := by
    conv_lhs => rw [h]
    rw [List.take_append_eq_append_take]
    have h0 : pat.length - x.length = 0 := by omega
    rw [h0]
    simp
  rw [h2]
  exact List.take_prefix _ _

/-- Any occurrence of `pat` inside `x ++ y` lies inside `x`, inside `y`, or
spans the boundary (a nonempty proper prefix of `pat` is a suffix of `x` and
the rest is a prefix of `y`). -/
theorem infix_append_split {pat x y : List Char} (h : pat <:+: x ++ y) :
    pat <:+: x ∨ pat <:+: y ∨
      ∃ k, 0 < k ∧ k < pat.length ∧ pat.take k <:+ x ∧ pat.drop k <+: y := by
  induction x with
  | nil => right; left; simpa using h
  | cons c x' ih =>
    rw [List.cons_append, List.infix_cons_iff] at h
    rcases h with hpre | hinf
    · rw [← List.cons_append] at hpre
      by_cases hlen : pat.length ≤ (c :: x').length
      · left
        exact (prefix_of_prefix_append hpre hlen).isInfix
      · push_neg at hlen
        rw [List.prefix_iff_eq_take] at hpre
        have hpat : pat = (c :: x') ++ y.take (pat.length - (c :: x').length) := by
          conv_lhs => rw [hpre]
          rw [List.take_append_eq_append_take,
            List.take_of_length_le (by omega : (c :: x').length ≤ pat.length)]
        have hx : pat.take (c :: x').length = c :: x' := by
          conv_lhs => rw [hpat]
          exact List.take_left ..
        have hy : pat.drop (c :: x').length <+: y := by
          conv_lhs => rw [hpat]
          rw [List.drop_left]
          exact List.take_prefix _ _
        right; right
        refine ⟨(c :: x').length, by simp, hlen, ?_, hy⟩
        rw [hx]
    · rcases ih hinf with h1 | h2 | ⟨k, hk0, hkl, hsx, hpy⟩
      · left; exact h1.trans (List.suffix_cons c x').isInfix
      · right; left; exact h2
      · right; right
        exact ⟨k, hk0, hkl, hsx.trans (List.suffix_cons c x'), hpy⟩

theorem not_infix_append_head {pat x y : List Char}
    (hx : ¬ pat <:+: x) (hy : ¬ pat <:+: y)
    (h : ∀ k, 0 < k → k < pat.length → pat[k]? ≠ y.head?) :
    ¬ pat <:+: x ++ y := by
  intro hinf
  rcases infix_append_split hinf with h1 | h2 | ⟨k, hk0, hkl, _, hpy⟩
  · exact hx h1
  · exact hy h2
  · have hne : pat.drop k ≠ [] := by
      intro hnil
      have h2 : pat.length - k = 0 := by rw [← List.length_drop, hnil]; rfl
      omega
    have := prefix_head_eq hpy hne
    rw [List.head?_drop] at this
    exact h k hk0 hkl this.symm

theorem not_infix_append_last {pat x y : List Char}
    (hx : ¬ pat <:+: x) (hy : ¬ pat <:+: y)
    (h : ∀ k, 0 < k → k < pat.length → pat[k-1]? ≠ x.getLast?) :
    ¬ pat <:+: x ++ y := by
  intro hinf
  rcases infix_append_split hinf with h1 | h2 | ⟨k, hk0, hkl, hsx, _⟩
  · exact hx h1
  · exact hy h2
  · have hne : pat.take k ≠ [] := by
      intro hnil
      have h2 : min k pat.length = 0 := by rw [← List.length_take, hnil]; rfl
      omega
    have hgl := suffix_getLast_eq hsx hne
    have heq : (pat.take k).getLast? = pat[k-1]? := by
      rw [List.getLast?_eq_getElem?, List.length_take,
        Nat.min_eq_left (Nat.le_of_lt hkl), List.getElem?_take]
      rw [if_pos (by omega : k - 1 < k)]
    rw [heq] at hgl
    exact h k hk0 hkl hgl.symm

theorem infix_of_infix_left {pat x : List Char} (y : List Char)
    (h : pat <:+: x) : pat <:+: x ++ y :=
  h.trans (List.prefix_append x y).isInfix

theorem infix_of_infix_right {pat y : List Char} (x : List Char)
    (h : pat <:+: y) : pat <:+: x ++ y :=
  h.trans (List.suffix_append x y).isInfix

theorem natDigitsAux_fuel (n : Nat) : ∀ f1 f2, n < f1 → n < f2 →
    natDigitsAux f1 n = natDigitsAux f2 n := by
  induction n using Nat.strong_induction_on with
  | _ n ih =>
    intro f1 f2 h1 h2
    match f1, f2 with
    | a + 1, b + 1 =>
      simp only [natDigitsAux]
      by_cases h10 : n < 10
      · simp [h10]
      · simp only [h10, if_false]
        have hq : n / 10 < n := Nat.div_lt_self (by omega) (by omega)
        congr 1
        exact ih (n / 10) hq a b (by omega) (by omega)

theorem decDigitsAux_append (acc : Nat) (l1 l2 : List Char) :
    decDigitsAux acc (l1 ++ l2) =
      match decDigitsAux acc l1 with
      | some v => decDigitsAux v l2
      | none => none := by
  induction l1 generalizing acc with
  | nil => simp [decDigitsAux]
  | cons c cs ih =>
    simp only [List.cons_append, decDigitsAux]
    cases digitVal c with
    | some d => exact ih (acc * 10 + d)
    | none => rfl

theorem digitVal_digitChar (d : Nat) (h : d < 10) :
    digitVal (Nat.digitChar d) = some d := by
  interval_cases d <;> rfl

theorem decDigitsAux_natDigits (n acc : Nat) :
    decDigitsAux acc (natDigits n) = some (acc * 10 ^ (natDigits n).length + n) := by
  induction n using Nat.strong_induction_on generalizing acc with
  | _ n ih =>
    by_cases h10 : n < 10
    · simp only [natDigits, natDigitsAux, h10, if_true, decDigitsAux,
        digitVal_digitChar n h10]
      simp
    · push_neg at h10
      have hq : n / 10 < n := Nat.div_lt_self (by omega) (by omega)
      have hsplit : natDigits n = natDigits (n / 10) ++ [Nat.digitChar (n % 10)] := by
        simp only [natDigits]
        conv_lhs => rw [natDigitsAux]
        simp only [show ¬ n < 10 by omega, if_false]
        rw [natDigitsAux_fuel (n / 10) n (n / 10 + 1) (by omega) (by omega)]
      rw [hsplit, decDigitsAux_append]
      rw [ih (n / 10) hq acc]
      simp only [decDigitsAux, digitVal_digitChar (n % 10) (by omega)]
      congr 1
      simp only [List.length_append, List.length_cons, List.length_nil, Nat.zero_add]
      have harith : (acc * 10 ^ (natDigits (n / 10)).length + n / 10) * 10 + n % 10 =
          acc * (10 ^ (natDigits (n / 10)).length * 10) + (10 * (n / 10) + n % 10) := by
        ring
      rw [harith, Nat.div_add_mod n 10, ← pow_succ]

theorem natDigits_ne_nil (n : Nat) : natDigits n ≠ [] := by
  by_cases h10 : n < 10
  · simp [natDigits, natDigitsAux, h10]
  · simp only [natDigits]
    rw [natDigitsAux]
    simp [h10]

theorem decDigits_natDigits (n : Nat) : decDigits (natDigits n) = some n := by
  have hne := natDigits_ne_nil n
  unfold decDigits
  split
  · exact absurd (by assumption) hne
  · rw [decDigitsAux_natDigits]
    simp

theorem natDigits_injective : Function.Injective natDigits := by
  intro a b h
  have ha := decDigits_natDigits a
  have hb := decDigits_natDigits b
  rw [h, hb] at ha
  exact (Option.some.injEq ..).mp ha.symm

theorem elem_induction {P : Elem → Prop}
    (h : ∀ m s a t cs, (∀ x ∈ cs, P x) → P (.mk m s a t cs)) : ∀ e, P e := by
  have key : ∀ n, ∀ e : Elem, sizeOf e ≤ n → P e := by
    intro n
    induction n using Nat.strong_induction_on with
    | _ n ih =>
      intro e hle
      cases e with
      | mk m s a t cs =>
        refine h m s a t cs ?_
        intro x hx
        have hlt : sizeOf x < sizeOf (Elem.mk m s a t cs) := by
          have := List.sizeOf_lt_of_mem hx
          simp only [Elem.mk.sizeOf_spec]
          omega
        exact ih (sizeOf x) (by omega) x (le_refl _)
  intro e
  exact key (sizeOf e) e (le_refl _)

theorem elStr_injective : Function.Injective elStr := by
  intro a b h
  have h2 : (elStr a).data = (elStr b).data := congrArg String.data h
  simp only [elStr, List.cons.injEq, true_and] at h2
  exact natDigits_injective h2

theorem parseElId_elStr (n : Nat) : parseElId (elStr n) = some n := by
  simp only [elStr, parseElId]
  exact decDigits_natDigits n

theorem countE_pos (e : Elem) : 1 ≤ countE e := by
  cases e with
  | mk m s a t cs => simp [countE]

theorem range'_app (a m n : Nat) :
    List.range' a m ++ List.range' (a + m) n = List.range' a (m + n) := by
  induction m generalizing a with
  | zero => simp
  | succ k ih =>
    simp only [List.range'_succ, List.cons_append]
    rw [show a + (k + 1) = a + 1 + k by omega, ih (a + 1)]
    rw [show k + 1 + n = k + n + 1 by omega, List.range'_succ]

theorem addIdsL_count (l : List Elem)
    (ih : ∀ e ∈ l, ∀ c, markerFreeE e = true → (addIdsE e c).2 = c + countE e) :
    ∀ c, markerFreeL l = true → (addIdsL l c).2 = c + countL l := by
  induction l with
  | nil => intro c _; simp [addIdsL, countL]
  | cons e es ihl =>
    intro c hfree
    simp only [markerFreeL, Bool.and_eq_true] at hfree
    simp only [addIdsL, countL]
    rw [ihl (fun x hx => ih x (List.mem_cons_of_mem e hx)) _ hfree.2,
      ih e (List.mem_cons_self e es) c hfree.1]
    omega

theorem addIdsE_count (e : Elem) :
    ∀ c, markerFreeE e = true → (addIdsE e c).2 = c + countE e := by
  induction e using elem_induction with
  | h m s a t cs ih =>
    intro c hfree
    simp only [markerFreeE, Bool.and_eq_true] at hfree
    have hm : m = none := Option.eq_none_of_isNone hfree.1
    subst hm
    simp only [addIdsE, countE]
    rw [addIdsL_count cs ih (c + 1) hfree.2]
    omega

theorem addIdsL_markers (l : List Elem)
    (ih : ∀ e ∈ l, ∀ c, markerFreeE e = true →
      markersE (addIdsE e c).1 = (List.range' c (countE e)).map elStr ∧
      (addIdsE e c).2 = c + countE e) :
    ∀ c, markerFreeL l = true →
      markersL (addIdsL l c).1 = (List.range' c (countL l)).map elStr := by
  induction l with
  | nil => intro c _; simp [addIdsL, markersL, countL]
  | cons e es ihl =>
    intro c hfree
    simp only [markerFreeL, Bool.and_eq_true] at hfree
    simp only [addIdsL, markersL, countL]
    rw [(ih e (List.mem_cons_self e es) c hfree.1).1,
      (ih e (List.mem_cons_self e es) c hfree.1).2,
      ihl (fun x hx => ih x (List.mem_cons_of_mem e hx)) _ hfree.2,
      ← List.map_append, range'_app]

theorem addIdsE_markers (e : Elem) :
    ∀ c, markerFreeE e = true →
      markersE (addIdsE e c).1 = (List.range' c (countE e)).map elStr := by
  induction e using elem_induction with
  | h m s a t cs ih =>
    intro c hfree
    simp only [markerFreeE, Bool.and_eq_true] at hfree
    have hm : m = none := Option.eq_none_of_isNone hfree.1
    subst hm
    simp only [addIdsE, markersE, countE]
    have ih2 : ∀ x ∈ cs, ∀ c, markerFreeE x = true →
        markersE (addIdsE x c).1 = (List.range' c (countE x)).map elStr ∧
        (addIdsE x c).2 = c + countE x :=
      fun x hx c hf => ⟨ih x hx c hf, addIdsE_count x c hf⟩
    rw [addIdsL_markers cs ih2 (c + 1) hfree.2]
    simp only [Option.toList_some]
    rw [show 1 + countL cs = countL cs + 1 by omega, List.range'_succ]
    simp

theorem addIdsL_allMarked_id (l : List Elem)
    (ih : ∀ e ∈ l, ∀ c, allMarkedE e = true → addIdsE e c = (e, c)) :
    ∀ c, allMarkedL l = true → addIdsL l c = (l, c) := by
  induction l with
  | nil => intro c _; simp [addIdsL]
  | cons e es ihl =>
    intro c hall
    simp only [allMarkedL, Bool.and_eq_true] at hall
    simp only [addIdsL]
    rw [ih e (List.mem_cons_self e es) c hall.1]
    simp only
    rw [ihl (fun x hx => ih x (List.mem_cons_of_mem e hx)) c hall.2]

theorem addIdsE_allMarked_id (e : Elem) :
    ∀ c, allMarkedE e = true → addIdsE e c = (e, c) := by
  induction e using elem_induction with
  | h m s a t cs ih =>
    intro c hall
    simp only [allMarkedE, Bool.and_eq_true] at hall
    obtain ⟨v, hv⟩ := Option.isSome_iff_exists.mp hall.1
    subst hv
    simp only [addIdsE]
    rw [addIdsL_allMarked_id cs ih c hall.2]

theorem addIdsL_result_allMarked (l : List Elem)
    (ih : ∀ e ∈ l, ∀ c, allMarkedE (addIdsE e c).1 = true) :
    ∀ c, allMarkedL (addIdsL l c).1 = true := by
  induction l with
  | nil => intro c; simp [addIdsL, allMarkedL]
  | cons e es ihl =>
    intro c
    simp only [addIdsL, allMarkedL, Bool.and_eq_true]
    exact ⟨ih e (List.mem_cons_self e es) c,
      ihl (fun x hx => ih x (List.mem_cons_of_mem e hx)) _⟩

theorem addIdsE_result_allMarked (e : Elem) :
    ∀ c, allMarkedE (addIdsE e c).1 = true := by
  induction e using elem_induction with
  | h m s a t cs ih =>
    intro c
    cases m with
    | none =>
      simp only [addIdsE, allMarkedE, Bool.and_eq_true]
      exact ⟨rfl, addIdsL_result_allMarked cs ih _⟩
    | some v =>
      simp only [addIdsE, allMarkedE, Bool.and_eq_true]
      exact ⟨rfl, addIdsL_result_allMarked cs ih _⟩

theorem scanIdsL_mem (l : List Elem)
    (ih : ∀ e ∈ l, ∀ s ∈ markersE e, ∀ v, parseElId s = some v → v ∈ scanIdsE e) :
    ∀ s ∈ markersL l, ∀ v, parseElId s = some v → v ∈ scanIdsL l := by
  induction l with
  | nil => intro s hs; simp [markersL] at hs
  | cons e es ihl =>
    intro s hs v hv
    simp only [markersL, List.mem_append] at hs
    simp only [scanIdsL, List.mem_append]
    rcases hs with hs | hs
    · exact Or.inl (ih e (List.mem_cons_self e es) s hs v hv)
    · exact Or.inr (ihl (fun x hx => ih x (List.mem_cons_of_mem e hx)) s hs v hv)

theorem scanIdsE_mem (e : Elem) :
    ∀ s ∈ markersE e, ∀ v, parseElId s = some v → v ∈ scanIdsE e := by
  induction e using elem_induction with
  | h m st a t cs ih =>
    intro s hs v hv
    simp only [markersE, List.mem_append] at hs
    simp only [scanIdsE, List.mem_append]
    rcases hs with hs | hs
    · left; left
      cases m with
      | none => simp at hs
      | some w =>
        simp only [Option.toList_some, List.mem_singleton] at hs
        subst hs
        simp [hv]
    · right
      exact scanIdsL_mem cs ih s hs v hv

/-- C7: identifier injection is idempotent — on an HTML document all of
whose element nodes already carry `data-visual-id` markers, the `addIds`
walk reassigns nothing and returns the document unchanged (hence a
byte-identical marker set) with the counter untouched. -/
theorem addVisualIds_idempotent (e : Elem) (c : Nat) (h : allMarkedE e = true) :
    addIdsE e c = (e, c) :=
  addIdsE_allMarked_id e c h

/-- Witness for C7 at a concrete already-injected document. -/
theorem addVisualIds_idempotent_witness :
    allMarkedE treeC7 = true ∧ addIdsE treeC7 5 = (treeC7, 5) :=
  ⟨by decide, addVisualIds_idempotent treeC7 5 (by decide)⟩

theorem selectRoot_acc_some (l : List PFile) (r : String) :
    l.foldl (fun acc f =>
      match acc with
      | some x => some x
      | none =>
        if f.ftype = FType.html ∧ rootCand f.path = true then some f.path else none)
      (some r) = some r := by
  induction l with
  | nil => rfl
  | cons f fs ih => simpa using ih

theorem selectRootDuring_eq (l : List PFile) :
    selectRootDuring l =
      (l.find? (fun f => decide (f.ftype = FType.html ∧ rootCand f.path = true))).map
        (fun f => f.path) := by
  induction l with
  | nil => rfl
  | cons f fs ih =>
    by_cases hc : f.ftype = FType.html ∧ rootCand f.path = true
    · simp only [selectRootDuring, List.foldl_cons]
      rw [if_pos hc, selectRoot_acc_some]
      have hb : (decide (f.ftype = FType.html) && rootCand f.path) = true := by
        simp [hc.1, hc.2]
      simp [List.find?_cons, hb]
    · simp only [selectRootDuring, List.foldl_cons]
      rw [if_neg hc]
      simp only [List.find?_cons]
      rw [decide_eq_false hc]
      simpa [selectRootDuring] using ih

theorem find?_cand_map (l : List ZEntry) :
    Option.map (fun f => f.path)
      (List.find? (fun f => decide (f.ftype = FType.html ∧ rootCand f.path = true))
        (l.map (fun e => (⟨e.path, getFileType e.path, e.data⟩ : PFile)))) =
    List.find? (fun p => decide (getFileType p = FType.html ∧ rootCand p = true))
      (l.map (fun e => e.path)) := by
  induction l with
  | nil => rfl
  | cons e es ih =>
    simp only [List.map_cons, List.find?_cons]
    cases hB : decide (getFileType e.path = FType.html ∧ rootCand e.path = true) with
    | false => exact ih
    | true => rfl

theorem find?_html_map (l : List ZEntry) :
    Option.map (fun f => f.path)
      (List.find? (fun f => decide (f.ftype = FType.html))
        (l.map (fun e => (⟨e.path, getFileType e.path, e.data⟩ : PFile)))) =
    List.find? (fun p => decide (getFileType p = FType.html)) (l.map (fun e => e.path)) := by
  induction l with
  | nil => rfl
  | cons e es ih =>
    simp only [List.map_cons, List.find?_cons]
    cases hB : decide (getFileType e.path = FType.html) with
    | false => exact ih
    | true => rfl

theorem rootChoice_eq_spec (l : List ZEntry) :
    rootChoice (l.map (fun e => (⟨e.path, getFileType e.path, e.data⟩ : PFile))) =
      specRootChoice (l.map (fun e => e.path)) := by
  unfold rootChoice specRootChoice
  rw [selectRootDuring_eq, find?_cand_map]
  cases h : List.find? (fun p => decide (getFileType p = FType.html ∧ rootCand p = true))
      (l.map (fun e => e.path)) with
  | some p => rfl
  | none =>
    simp only
    rw [find?_html_map]

/-- C5 (amended): whenever `processZipFile` succeeds, the selected root HTML
path is the first HTML-classified entry, in archive entry order, whose
lowercased path ends in `index.html` or which sits at the archive top level;
if no entry qualifies, it is the first HTML-classified entry in entry order.
(The claim's stated precedence — `index.html` at any depth beats any
top-level HTML file — does not hold; see the counterexample.) -/
theorem processZip_root_spec (meta : FileMeta) (entries : List ZEntry) :
    rootAgreesSpec entries (processZip meta entries) := by
  cases hr : processZip meta entries with
  | err m => exact trivial
  | ok c =>
    show some c.rootHtmlPath =
      specRootChoice ((entries.filter (fun e => !e.isDir)).map (fun e => e.path))
    unfold processZip at hr
    revert hr
    cases validateFile meta with
    | invalid msg => intro hr; exact absurd hr (by simp)
    | valid =>
      intro hr
      by_cases hcount : MAX_FILES_COUNT < (entries.filter (fun e => !e.isDir)).length
      · rw [if_pos hcount] at hr
        exact absurd hr (by simp)
      · rw [if_neg hcount] at hr
        by_cases hdang : ((entries.filter (fun e => !e.isDir)).filter
            (fun e => isDangerousPath e.path)).isEmpty = false
        · rw [if_pos hdang] at hr
          exact absurd hr (by simp)
        · rw [if_neg hdang] at hr
          revert hr
          cases hm : rootChoice ((entries.filter (fun e => !e.isDir)).map
              (fun e => (⟨e.path, getFileType e.path, e.data⟩ : PFile))) with
          | none => intro hr; exact absurd hr (by simp)
          | some root =>
            intro hr
            simp only [ZResult.ok.injEq] at hr
            subst hr
            rw [← rootChoice_eq_spec (entries.filter (fun e => !e.isDir)), hm]

/-- C5 counterexample: an archive whose entries are, in order, a top-level
`page.html` and a nested `sub/index.html`. The claim's precedence requires
`sub/index.html` (an `index.html` at any depth wins); the code selects
`page.html`, the first entry satisfying its disjunctive test. -/
theorem processZip_root_cex :
    rootOf (processZip metaZip entriesC5) = some "page.html" ∧
      ("page.html" : String) ≠ "sub/index.html" := by
  constructor
  · rfl
  · decide

theorem string_ext {a b : String} (h : a.data = b.data) : a = b := by
  cases a
  cases b
  cases h
  rfl

theorem tooManyMsg_split (n : Nat) :
    tooManyMsg n =
      ("ZIP contains too many files (" ++ String.mk (natDigits n) ++ "). Maximum allowed: ")
        ++ "500" := by
  apply string_ext
  simp only [tooManyMsg, String.data_append]
  rw [show natDigits MAX_FILES_COUNT = ['5', '0', '0'] from by rfl]

theorem tooManyMsg_ne_empty (n : Nat) : tooManyMsg n ≠ "" := by
  intro h
  have h2 := congrArg String.data h
  rw [tooManyMsg_split] at h2
  simp only [String.data_append] at h2
  simp at h2

/-- C9: an uploaded archive that passes the basic file validation but
contains more than 500 non-directory entries is rejected by
`processZipFile` with the exact message naming the 500-entry maximum; no
Project value is produced, and the upload handler leaves the current
project, the history and the cursor unchanged, surfacing only the error
message with the loading flag cleared. -/
theorem processZip_tooMany (meta : FileMeta) (entries : List ZEntry) (s : EState)
    (hv : validateFile meta = .valid)
    (hc : MAX_FILES_COUNT < (entries.filter (fun e => !e.isDir)).length) :
    C9Concl meta entries s := by
  have hpz : processZip meta entries =
      .err (tooManyMsg (entries.filter (fun e => !e.isDir)).length) := by
    unfold processZip
    rw [hv]
    rw [if_pos hc]
  have hh : handleResult (processZip meta entries) s =
      { s with
        isLoading := false,
        error := some (tooManyMsg (entries.filter (fun e => !e.isDir)).length) } := by
    rw [hpz]
    simp only [handleResult, opSetLoading, opSetError]
    rw [if_neg (tooManyMsg_ne_empty _)]
  refine ⟨hpz, ⟨_, tooManyMsg_split _⟩, ?_, ?_, ?_, ?_, ?_⟩ <;> simp [hh]

/-- Witness for C9: a 501-entry archive with a valid `.zip` wrapper. -/
theorem processZip_tooMany_witness :
    validateFile metaC9 = .valid ∧
      MAX_FILES_COUNT < (entriesC9.filter (fun e => !e.isDir)).length ∧
      C9Concl metaC9 entriesC9 initState :=
  ⟨by decide, by decide,
    processZip_tooMany metaC9 entriesC9 initState (by decide) (by decide)⟩

theorem apm_append (l1 l2 : List PFile) :
    allProjectMarkers (l1 ++ l2) = allProjectMarkers l1 ++ allProjectMarkers l2 := by
  induction l1 with
  | nil => simp [allProjectMarkers]
  | cons f fs ih =>
    simp only [allProjectMarkers, List.cons_append, List.foldr_cons] at ih ⊢
    rw [ih, List.append_assoc]

theorem le_of_mem_max? : ∀ (l : List Nat) (m x : Nat), l.max? = some m → x ∈ l → x ≤ m := by
  intro l
  induction l with
  | nil => intro m x hm _; simp at hm
  | cons a as ih =>
    intro m x hm hx
    rw [List.max?_cons] at hm
    have hm2 := Option.some.inj hm
    rcases List.mem_cons.mp hx with rfl | hx
    · cases hab : as.max? with
      | none => rw [hab] at hm2; simp at hm2; omega
      | some b => rw [hab] at hm2; simp at hm2; omega
    · cases hab : as.max? with
      | none =>
        rw [List.max?_eq_none_iff] at hab
        subst hab
        simp at hx
      | some b =>
        have hxb : x ≤ b := ih b x hab hx
        rw [hab] at hm2
        simp at hm2
        omega

theorem injectStep_good (f : PFile) (st : List PFile × Nat)
    (hf : fileOkFree f = true) (h : GoodSt st) : GoodSt (injectStep st f) := by
  obtain ⟨S, hS, hnd, hlt⟩ := h
  obtain ⟨path, ftype, content⟩ := f
  cases content with
  | raw s2 =>
    have hstep : injectStep st ⟨path, ftype, .raw s2⟩ = (st.1 ++ [⟨path, ftype, .raw s2⟩], st.2) := by
      cases ftype <;> rfl
    rw [hstep]
    refine ⟨S, ?_, hnd, hlt⟩
    rw [apm_append, hS]
    simp [allProjectMarkers, fileMarkers]
  | doc t =>
    cases ftype with
    | html =>
      have hfree : markerFreeE t = true := by simpa [fileOkFree] using hf
      simp only [injectStep]
      set c := st.2 with hc
      set e2 := (addIdsE t c).1 with he2
      have hmk : markersE e2 = (List.range' c (countE t)).map elStr := by
        rw [he2]
        exact addIdsE_markers t c hfree
      have hn1 : 1 ≤ countE t := countE_pos t
      have hkey : (c + countE t - 1) ∈ scanIdsE e2 := by
        apply scanIdsE_mem e2 (elStr (c + countE t - 1))
        · rw [hmk]
          apply List.mem_map_of_mem
          rw [List.mem_range'_1]
          omega
        · exact parseElId_elStr _
      cases hmax : (scanIdsE e2).max? with
      | none =>
        rw [List.max?_eq_none_iff] at hmax
        rw [hmax] at hkey
        simp at hkey
      | some m =>
        have hge : c + countE t - 1 ≤ m := le_of_mem_max? _ _ _ hmax hkey
        show GoodSt (st.1 ++ [(⟨path, FType.html, SContent.doc e2⟩ : PFile)], m + 1)
        refine ⟨S ++ List.range' c (countE t), ?_, ?_, ?_⟩
        · rw [apm_append, hS]
          simp only [allProjectMarkers, fileMarkers, List.foldr_cons, List.foldr_nil,
            List.append_nil, List.map_append]
          rw [hmk]
        · refine List.Nodup.append hnd (List.nodup_range' c (countE t)) ?_
          intro x hx1 hx2
          rw [List.mem_range'_1] at hx2
          have := hlt x hx1
          omega
        · intro x hx
          rcases List.mem_append.mp hx with hx | hx
          · have := hlt x hx
            omega
          · rw [List.mem_range'_1] at hx
            omega
    | css => exact absurd hf (by simp [fileOkFree])
    | js => exact absurd hf (by simp [fileOkFree])
    | image => exact absurd hf (by simp [fileOkFree])
    | other => exact absurd hf (by simp [fileOkFree])

theorem injectFold_good (files : List PFile) :
    ∀ st, (∀ f ∈ files, fileOkFree f = true) → GoodSt st →
      GoodSt (files.foldl injectStep st) := by
  induction files with
  | nil => intro st _ h; exact h
  | cons f fs ih =>
    intro st hall h
    simp only [List.foldl_cons]
    exact ih _ (fun x hx => hall x (List.mem_cons_of_mem f hx))
      (injectStep_good f st (hall f (List.mem_cons_self f fs)) h)

/-- C6 (amended): for every archive whose HTML entries carry no pre-existing
`data-visual-id` markers, a successful `processZipFile` run produces a
Project in which no two elements across all HTML files share an identifier:
each file's injection starts at the shared counter and the counter then
jumps above the maximum scanned identifier, so the generated identifier
ranges are pairwise disjoint. (With pre-existing markers the claimed
uniqueness fails; see the counterexample.) -/
theorem processZip_ids_nodup (meta : FileMeta) (entries : List ZEntry)
    (h : ((entries.filter (fun e => !e.isDir)).all entryOkFree) = true) :
    projMarkersNodup (processZip meta entries) := by
  cases hr : processZip meta entries with
  | err m => exact trivial
  | ok c =>
    show (allProjectMarkers c.files).Nodup
    unfold processZip at hr
    revert hr
    cases validateFile meta with
    | invalid msg => intro hr; exact absurd hr (by simp)
    | valid =>
      intro hr
      by_cases hcount : MAX_FILES_COUNT < (entries.filter (fun e => !e.isDir)).length
      · rw [if_pos hcount] at hr
        exact absurd hr (by simp)
      · rw [if_neg hcount] at hr
        by_cases hdang : ((entries.filter (fun e => !e.isDir)).filter
            (fun e => isDangerousPath e.path)).isEmpty = false
        · rw [if_pos hdang] at hr
          exact absurd hr (by simp)
        · rw [if_neg hdang] at hr
          revert hr
          cases hm : rootChoice ((entries.filter (fun e => !e.isDir)).map
              (fun e => (⟨e.path, getFileType e.path, e.data⟩ : PFile))) with
          | none => intro hr; exact absurd hr (by simp)
          | some root =>
            intro hr
            simp only [ZResult.ok.injEq] at hr
            subst hr
            show (allProjectMarkers (injectIds _)).Nodup
            have hall : ∀ f ∈ (entries.filter (fun e => !e.isDir)).map
                (fun e => (⟨e.path, getFileType e.path, e.data⟩ : PFile)),
                fileOkFree f = true := by
              intro f hfm
              obtain ⟨e, he, rfl⟩ := List.mem_map.mp hfm
              have := (List.all_eq_true.mp h) e he
              exact this
            have hstart : GoodSt ([], 0) := ⟨[], rfl, List.nodup_nil, by simp⟩
            obtain ⟨S, hS, hnd, _⟩ := injectFold_good _ _ hall hstart
            unfold injectIds
            rw [hS]
            exact List.Nodup.map elStr_injective hnd

/-- Witness for C6 at a concrete marker-free two-page archive. -/
theorem processZip_ids_nodup_witness :
    ((entriesC5.filter (fun e => !e.isDir)).all entryOkFree) = true ∧
      projMarkersNodup (processZip metaZip entriesC5) :=
  ⟨by decide, processZip_ids_nodup metaZip entriesC5 (by decide)⟩

/-- C6 counterexample: an archive whose single HTML file already carries a
`data-visual-id="el-1"` marker on one node. Injection assigns `el-0` to the
root and `el-1` to the first unmarked child, colliding with the pre-existing
`el-1`: two elements of the produced Project share an identifier. -/
theorem processZip_ids_cex :
    markersOfResult (processZip metaZip entriesC6) = ["el-0", "el-1", "el-1"] ∧
      ¬ (["el-0", "el-1", "el-1"] : List String).Nodup := by
  constructor
  · rfl
  · decide

/-- C4 (code bug evidence): the batch window `startBatch / updateElement /
endBatch` performs no history commit at all. After the sequence the history
still holds only the initial entry — although the `updateElement` inside the
window really mutated the Project (the marked element's styles change from
`[]` to `color: red`), `endBatch`'s guard on `batchCommands` can never pass
because nothing in the store ever appends to `batchCommands`. -/
theorem endBatch_commits_nothing :
    (run opsC4 initState).history.length = 1 ∧
    (run opsC4 initState).history.map (fun e => e.label) = ["Initial state"] ∧
    (run opsC4 initState).activeBatch = none ∧
    (run opsC4 initState).batchCommands = [] ∧
    obsStyles "el-1" (run (opsC4.take 3) initState) = some [("color", "red")] ∧
    obsStyles "el-1" (run (opsC4.take 2) initState) = some [] := by
  refine ⟨?_, ?_, ?_, ?_, ?_, ?_⟩ <;> rfl

/-- C10: `setProject` initialises the store — history becomes exactly one
entry labelled `Initial state` holding a deep copy of the uploaded project
with null selection, the cursor goes to 0, selection, element data and error
are cleared, `canUndo` is false, and after the first committed edit a single
`undo` restores the as-uploaded project data. The deep copy is witnessed by
the entry's heap region being disjoint from the live Project's. -/
theorem setProject_initializes (s : EState) (c : PContent) (g : PContent → PContent)
    (lbl : Option String) (h : s.isHistoryEnabled = true) : C10Concl s c g lbl := by
  refine ⟨rfl, rfl, rfl, rfl, rfl, ?_, ?_, ?_, ?_⟩
  · simp [canUndo, opSetProject]
  · intro e he k hk
    simp only [opSetProject, List.mem_singleton] at he
    subst he
    simp only [List.mem_singleton] at hk
    subst hk
    simp [liveRegions, opSetProject]
  · simp only [opSetProject, opUpdateProject, opSaveToHistory, h]
    simp only [opUndo, opFlushHistory]
    rfl
  · simp only [opSetProject, opUpdateProject, opSaveToHistory, h]
    simp only [opUndo, opFlushHistory]
    rfl

/-- Witness for C10 from the empty initial store. -/
theorem setProject_initializes_witness :
    initState.isHistoryEnabled = true ∧
      C10Concl initState contentC4 (fun c => c) (some "Edit") :=
  ⟨rfl, setProject_initializes initState contentC4 (fun c => c) (some "Edit") rfl⟩

theorem invParts_freshLive {hist : List HistoryEntry} {live : List Nat} {fresh : Nat}
    (h : InvParts hist live fresh) : InvParts hist [fresh] (fresh + 1) := by
  obtain ⟨_, h2, _⟩ := h
  refine ⟨?_, ?_, ?_⟩
  · intro e he k hk hkl
    simp only [List.mem_singleton] at hkl
    have := h2 e he k hk
    omega
  · intro e he k hk
    have := h2 e he k hk
    omega
  · intro k hk
    simp only [List.mem_singleton] at hk
    omega

theorem invParts_newLive {hist : List HistoryEntry} {live : List Nat} {fresh : Nat}
    (h : InvParts hist live fresh) : InvParts hist (fresh :: live) (fresh + 1) := by
  obtain ⟨h1, h2, h3⟩ := h
  refine ⟨?_, ?_, ?_⟩
  · intro e he k hk hkl
    simp only [List.mem_cons] at hkl
    rcases hkl with rfl | hkl
    · have := h2 e he k hk
      omega
    · exact h1 e he k hk hkl
  · intro e he k hk
    have := h2 e he k hk
    omega
  · intro k hk
    simp only [List.mem_cons] at hk
    rcases hk with rfl | hk
    · omega
    · have := h3 k hk
      omega

theorem mem_savedHistory {l : Option String} {s : EState} {cur : Project} {e : HistoryEntry}
    (he : e ∈ savedHistory l s cur) : e ∈ s.history ∨ e = saveEntry l s cur := by
  unfold savedHistory at he
  have he2 : e ∈ truncHistory s ++ [saveEntry l s cur] := by
    split at he
    · exact List.mem_of_mem_drop he
    · exact he
  rcases List.mem_append.mp he2 with h3 | h3
  · exact Or.inl (List.mem_of_mem_take h3)
  · exact Or.inr (List.mem_singleton.mp h3)

theorem invC1_congr (s t : EState) (hh : t.history = s.history)
    (hc : t.currentProject = s.currentProject) (hf : t.fresh = s.fresh)
    (h : InvC1 s) : InvC1 t := by
  obtain ⟨h1, h2, h3⟩ := h
  have hl : liveRegions t = liveRegions s := by
    unfold liveRegions
    rw [hc]
  refine ⟨?_, ?_, ?_⟩
  · intro e he k hk
    rw [hh] at he
    rw [hl]
    exact h1 e he k hk
  · intro e he k hk
    rw [hh] at he
    rw [hf]
    exact h2 e he k hk
  · intro k hk
    rw [hl] at hk
    rw [hf]
    exact h3 k hk

theorem invC1_save (l : Option String) (s : EState) (h : InvC1 s) :
    InvC1 (opSaveToHistory l s) := by
  obtain ⟨h1, h2, h3⟩ := h
  unfold opSaveToHistory
  cases hcur : s.currentProject with
  | none => exact ⟨h1, h2, h3⟩
  | some cur =>
    have hlive : liveRegions s = cur.region := by simp [liveRegions, hcur]
    show InvC1 (if s.isHistoryEnabled = false then s
      else { s with
        currentProject := some cur,
        pending := none,
        history := savedHistory l s cur,
        historyIndex := savedIndex l s cur,
        lastHistorySave := s.clock,
        fresh := s.fresh + 1 })
    by_cases hen : s.isHistoryEnabled = false
    · rw [if_pos hen]
      exact ⟨h1, h2, h3⟩
    · rw [if_neg hen]
      refine ⟨?_, ?_, ?_⟩
      · intro e he k hk hkl
        have he2 : e ∈ savedHistory l s cur := he
        have hkl2 : k ∈ cur.region := hkl
        rcases mem_savedHistory he2 with hold | rfl
        · exact h1 e hold k hk (by rw [hlive]; exact hkl2)
        · have hk2 : k = s.fresh := by simpa [saveEntry] using hk
          have := h3 k (by rw [hlive]; exact hkl2)
          omega
      · intro e he k hk
        have he2 : e ∈ savedHistory l s cur := he
        show k < s.fresh + 1
        rcases mem_savedHistory he2 with hold | rfl
        · have := h2 e hold k hk
          omega
        · have hk2 : k = s.fresh := by simpa [saveEntry] using hk
          omega
      · intro k hk
        have hk2 : k ∈ cur.region := hk
        show k < s.fresh + 1
        have := h3 k (by rw [hlive]; exact hk2)
        omega

theorem invC1_flush (s : EState) (h : InvC1 s) : InvC1 (opFlushHistory s) := by
  unfold opFlushHistory
  cases s.pending with
  | none => exact h
  | some l => exact invC1_save l s h

theorem invC1_step (o : Op) (s : EState) (h : InvC1 s) : InvC1 (step o s) := by
  obtain ⟨h1, h2, h3⟩ := h
  have hp : InvParts s.history (liveRegions s) s.fresh := ⟨h1, h2, h3⟩
  cases o with
  | setProject c =>
    show InvC1 (opSetProject c s)
    refine ⟨?_, ?_, ?_⟩
    · intro e he k hk
      simp only [opSetProject, List.mem_singleton] at he
      subst he
      simp only [List.mem_singleton] at hk
      subst hk
      simp [liveRegions, opSetProject]
    · intro e he k hk
      simp only [opSetProject, List.mem_singleton] at he
      subst he
      simp only [List.mem_singleton] at hk
      subst hk
      simp [opSetProject]
    · intro k hk
      simp only [liveRegions, opSetProject, List.mem_singleton] at hk
      subst hk
      simp [opSetProject]
  | updateProject g =>
    show InvC1 (opUpdateProject g s)
    unfold opUpdateProject
    cases hcur : s.currentProject with
    | none => exact ⟨h1, h2, h3⟩
    | some cur => exact invParts_freshLive hp
  | updateElement eid u =>
    show InvC1 (opUpdateElement eid u s)
    unfold opUpdateElement
    cases hcur : s.currentProject with
    | none => exact ⟨h1, h2, h3⟩
    | some cur =>
      rw [show liveRegions s = cur.region from by simp [liveRegions, hcur]] at hp
      exact invParts_newLive hp
  | setCurrentPage p =>
    show InvC1 (opSetCurrentPage p s)
    unfold opSetCurrentPage
    cases hcur : s.currentProject with
    | none => exact ⟨h1, h2, h3⟩
    | some cur =>
      rw [show liveRegions s = cur.region from by simp [liveRegions, hcur]] at hp
      exact invParts_newLive hp
  | selectElement i => exact invC1_congr s _ rfl rfl rfl ⟨h1, h2, h3⟩
  | hoverElement i => exact invC1_congr s _ rfl rfl rfl ⟨h1, h2, h3⟩
  | setElementData d => exact invC1_congr s _ rfl rfl rfl ⟨h1, h2, h3⟩
  | saveToHistory l => exact invC1_save l s ⟨h1, h2, h3⟩
  | debouncedSave l =>
    show InvC1 (opDebouncedSave l s)
    refine invC1_congr s _ ?_ ?_ ?_ ⟨h1, h2, h3⟩ <;>
      (unfold opDebouncedSave
       split
       all_goals first
         | rfl
         | (split <;> rfl))
  | flushHistory => exact invC1_flush s ⟨h1, h2, h3⟩
  | undo =>
    show InvC1 (opUndo s)
    unfold opUndo
    obtain ⟨f1, f2, f3⟩ := invC1_flush s ⟨h1, h2, h3⟩
    by_cases hidx : 0 < (opFlushHistory s).historyIndex
    · rw [if_pos hidx]
      cases hget : (opFlushHistory s).history[((opFlushHistory s).historyIndex - 1).toNat]? with
      | none => exact ⟨f1, f2, f3⟩
      | some entry => exact invParts_freshLive ⟨f1, f2, f3⟩
    · rw [if_neg hidx]
      exact ⟨f1, f2, f3⟩
  | redo =>
    show InvC1 (opRedo s)
    unfold opRedo
    obtain ⟨f1, f2, f3⟩ := invC1_flush s ⟨h1, h2, h3⟩
    by_cases hidx : (opFlushHistory s).historyIndex <
        ((opFlushHistory s).history.length : Int) - 1
    · rw [if_pos hidx]
      cases hget : (opFlushHistory s).history[((opFlushHistory s).historyIndex + 1).toNat]? with
      | none => exact ⟨f1, f2, f3⟩
      | some entry => exact invParts_freshLive ⟨f1, f2, f3⟩
    · rw [if_neg hidx]
      exact ⟨f1, f2, f3⟩
  | clearHistory =>
    show InvC1 (opClearHistory s)
    unfold opClearHistory
    cases hcur : s.currentProject with
    | none => exact invC1_congr s _ rfl hcur.symm rfl ⟨h1, h2, h3⟩
    | some cur =>
      have hlive : liveRegions s = cur.region := by simp [liveRegions, hcur]
      refine ⟨?_, ?_, ?_⟩
      · intro e he k hk hkl
        have he2 : e ∈ [(⟨⟨cur.content, [s.fresh]⟩, none, s.clock, "Cleared"⟩ : HistoryEntry)] := he
        have hkl2 : k ∈ cur.region := hkl
        simp only [List.mem_singleton] at he2
        subst he2
        have hk2 : k = s.fresh := by simpa using hk
        have := h3 k (by rw [hlive]; exact hkl2)
        omega
      · intro e he k hk
        have he2 : e ∈ [(⟨⟨cur.content, [s.fresh]⟩, none, s.clock, "Cleared"⟩ : HistoryEntry)] := he
        show k < s.fresh + 1
        simp only [List.mem_singleton] at he2
        subst he2
        have hk2 : k = s.fresh := by simpa using hk
        omega
      · intro k hk
        have hk2 : k ∈ cur.region := hk
        show k < s.fresh + 1
        have := h3 k (by rw [hlive]; exact hk2)
        omega
  | startBatch l => exact invC1_congr s _ rfl rfl rfl ⟨h1, h2, h3⟩
  | endBatch =>
    show InvC1 (opEndBatch s)
    have hbase : InvC1 (match s.activeBatch with
        | some l => if l ≠ "" ∧ s.batchCommands ≠ [] then opSaveToHistory (some l) s else s
        | none => s) := by
      cases s.activeBatch with
      | none => exact ⟨h1, h2, h3⟩
      | some l =>
        show InvC1 (if l ≠ "" ∧ s.batchCommands ≠ [] then opSaveToHistory (some l) s else s)
        by_cases hcond : l ≠ "" ∧ s.batchCommands ≠ []
        · rw [if_pos hcond]
          exact invC1_save (some l) s ⟨h1, h2, h3⟩
        · rw [if_neg hcond]
          exact ⟨h1, h2, h3⟩
    exact invC1_congr (match s.activeBatch with
        | some l => if l ≠ "" ∧ s.batchCommands ≠ [] then opSaveToHistory (some l) s else s
        | none => s) (opEndBatch s) rfl rfl rfl hbase
  | cancelBatch =>
    show InvC1 (opCancelBatch s)
    unfold opCancelBatch
    cases s.activeBatch with
    | none => exact ⟨h1, h2, h3⟩
    | some l =>
      show InvC1 (if l ≠ "" ∧ 0 ≤ s.historyIndex then
          match s.history[s.historyIndex.toNat]? with
          | some entry =>
            { s with
              currentProject := some ⟨entry.project.content, [s.fresh]⟩,
              activeBatch := none, batchCommands := [], fresh := s.fresh + 1 }
          | none => s
        else s)
      by_cases hcond : l ≠ "" ∧ 0 ≤ s.historyIndex
      · rw [if_pos hcond]
        cases hget : s.history[s.historyIndex.toNat]? with
        | none => exact ⟨h1, h2, h3⟩
        | some entry => exact invParts_freshLive hp
      · rw [if_neg hcond]
        exact ⟨h1, h2, h3⟩
  | setHistoryEnabled b => exact invC1_congr s _ rfl rfl rfl ⟨h1, h2, h3⟩
  | setLoading b => exact invC1_congr s _ rfl rfl rfl ⟨h1, h2, h3⟩
  | setError e => exact invC1_congr s _ rfl rfl rfl ⟨h1, h2, h3⟩
  | clearError => exact invC1_congr s _ rfl rfl rfl ⟨h1, h2, h3⟩
  | mutateLive g =>
    show InvC1 (opMutateLive g s)
    unfold opMutateLive
    cases hcur : s.currentProject with
    | none => exact ⟨h1, h2, h3⟩
    | some cur =>
      have hreg : ∀ e : HistoryEntry,
          ((fun (e : HistoryEntry) => if e.project.region.any (fun k => cur.region.contains k) then
            { e with project := ⟨g e.project.content, e.project.region⟩ }
          else e) e).project.region = e.project.region := by
        intro e
        dsimp only
        split <;> rfl
      have hlive : liveRegions s = cur.region := by simp [liveRegions, hcur]
      refine ⟨?_, ?_, ?_⟩
      · intro e he k hk hkl
        have he2 : e ∈ s.history.map (fun e =>
            if e.project.region.any (fun k => cur.region.contains k) then
              { e with project := ⟨g e.project.content, e.project.region⟩ }
            else e) := he
        have hkl2 : k ∈ cur.region := hkl
        obtain ⟨e0, he0, rfl⟩ := List.mem_map.mp he2
        rw [hreg e0] at hk
        exact h1 e0 he0 k hk (by rw [hlive]; exact hkl2)
      · intro e he k hk
        have he2 : e ∈ s.history.map (fun e =>
            if e.project.region.any (fun k => cur.region.contains k) then
              { e with project := ⟨g e.project.content, e.project.region⟩ }
            else e) := he
        show k < s.fresh
        obtain ⟨e0, he0, rfl⟩ := List.mem_map.mp he2
        rw [hreg e0] at hk
        exact h2 e0 he0 k hk
      · intro k hk
        have hk2 : k ∈ cur.region := hk
        show k < s.fresh
        exact h3 k (by rw [hlive]; exact hk2)

theorem invC1_run (ops : List Op) : InvC1 (run ops initState) := by
  have hinit : InvC1 initState := by
    refine ⟨?_, ?_, ?_⟩ <;> intro e he <;> simp [initState, liveRegions] at he ⊢
  rw [run]
  induction ops using List.reverseRecOn with
  | nil => exact hinit
  | append_singleton ops o ih =>
    rw [List.foldl_append]
    exact invC1_step o _ ih

/-- C1: for every sequence of store operations starting from the empty
store, no history entry shares any heap region with the live Project; in
particular an external in-place mutation of the live Project's object graph
(`mutateLive`) rewrites no history entry. Every commit path deep-copies
(`JSON.parse(JSON.stringify(...))` gives a fresh region), so this holds even
though edits like `updateElement` share structure with the previous live
value. -/
theorem history_never_shares_with_live (ops : List Op) (g : PContent → PContent) :
    entriesDisjointLive (run ops initState) ∧
      (step (Op.mutateLive g) (run ops initState)).history = (run ops initState).history := by
  obtain ⟨h1, h2, h3⟩ := invC1_run ops
  refine ⟨h1, ?_⟩
  show (opMutateLive g (run ops initState)).history = _
  unfold opMutateLive
  cases hcur : (run ops initState).currentProject with
  | none => rfl
  | some cur =>
    have hlive : liveRegions (run ops initState) = cur.region := by
      simp [liveRegions, hcur]
    show List.map _ _ = _
    have hid : ∀ e ∈ (run ops initState).history,
        (fun (e : HistoryEntry) =>
          if e.project.region.any (fun k => cur.region.contains k) then
            { e with project := ⟨g e.project.content, e.project.region⟩ }
          else e) e = e := by
      intro e he
      have hcond : e.project.region.any (fun k => cur.region.contains k) = false := by
        rw [List.any_eq_false]
        intro k hk
        have := h1 e he k hk
        rw [hlive] at this
        simpa using this
      simp only [hcond]
      simp
    exact (List.map_congr_left hid).trans (List.map_id _)

theorem run_append (ops1 ops2 : List Op) (s : EState) :
    run (ops1 ++ ops2) s = run ops2 (run ops1 s) := by
  simp [run, List.foldl_append]

theorem upd_eq (g : PContent → PContent) (t : EState) (cur : Project)
    (hc : t.currentProject = some cur) :
    opUpdateProject g t =
      { t with currentProject := some ⟨g cur.content, [t.fresh]⟩, fresh := t.fresh + 1 } := by
  unfold opUpdateProject
  rw [hc]

theorem save_eq (label : Option String) (t : EState) (cur : Project)
    (hc : t.currentProject = some cur) (he : t.isHistoryEnabled = true) :
    opSaveToHistory label t =
      { t with
        pending := none,
        history := savedHistory label t cur,
        historyIndex := savedIndex label t cur,
        lastHistorySave := t.clock,
        fresh := t.fresh + 1 } := by
  unfold opSaveToHistory
  rw [hc, he]
  rfl

theorem flush_none (t : EState) (hp : t.pending = none) : opFlushHistory t = t := by
  unfold opFlushHistory
  rw [hp]

theorem fullHist_succ (c0 : PContent) (f : Nat → PContent) (n : Nat) :
    fullHist c0 f (n + 1) = fullHist c0 f n ++ [entC2 f n] := by
  simp [fullHist, List.range_succ]

theorem fullHist_length (c0 : PContent) (f : Nat → PContent) (n : Nat) :
    (fullHist c0 f n).length = n + 1 := by
  simp [fullHist]

theorem undo_eq (t : EState) (j : Nat) (e : HistoryEntry)
    (hp : t.pending = none) (hidx : t.historyIndex = (j : Int)) (hj : 0 < j)
    (he : t.history[j - 1]? = some e) :
    opUndo t =
      { t with
        currentProject := some ⟨e.project.content, [t.fresh]⟩,
        selectedElementId := e.selectedElementId,
        historyIndex := (j : Int) - 1,
        fresh := t.fresh + 1 } := by
  unfold opUndo
  rw [flush_none t hp]
  show (if 0 < t.historyIndex then
      match t.history[(t.historyIndex - 1).toNat]? with
      | some entry =>
        { t with
          currentProject := some ⟨entry.project.content, [t.fresh]⟩,
          selectedElementId := entry.selectedElementId,
          historyIndex := t.historyIndex - 1,
          fresh := t.fresh + 1 }
      | none => t
    else t) = _
  rw [hidx, if_pos (by exact_mod_cast hj)]
  rw [show (((j : Int)) - 1).toNat = j - 1 from by omega]
  rw [he]

theorem undo_noop (t : EState) (hp : t.pending = none) (hi : t.historyIndex = 0) :
    opUndo t = t := by
  unfold opUndo
  rw [flush_none t hp]
  show (if 0 < t.historyIndex then
      match t.history[(t.historyIndex - 1).toNat]? with
      | some entry =>
        { t with
          currentProject := some ⟨entry.project.content, [t.fresh]⟩,
          selectedElementId := entry.selectedElementId,
          historyIndex := t.historyIndex - 1,
          fresh := t.fresh + 1 }
      | none => t
    else t) = t
  rw [hi, if_neg (by omega)]

theorem saveC2_aux (c0 : PContent) (f : Nat → PContent) (n : Nat) (t : EState)
    (h1 : t.currentProject = some ⟨f n, [2 + 2 * n]⟩)
    (h2 : t.isHistoryEnabled = true)
    (h3 : t.history = (fullHist c0 f n).drop (n + 1 - 50))
    (h4 : t.historyIndex = min (n : Int) 49)
    (h5 : t.fresh = 2 + 2 * n + 1)
    (h6 : t.selectedElementId = none)
    (h7 : t.clock = 0)
    (h8 : t.isLoading = false) (h9 : t.error = none)
    (h10 : t.hoveredElementId = none) (h11 : t.selectedElementData = none)
    (h13 : t.activeBatch = none) (h14 : t.batchCommands = []) :
    opSaveToHistory none t = stC2 c0 f (n + 1) := by
  obtain ⟨cp, il, er, sei, hei, sed, hist, hidx, ihe, lhs, ab, bc, pend, fr, clk⟩ := t
  dsimp only at h1 h2 h3 h4 h5 h6 h7 h8 h9 h10 h11 h13 h14
  subst h1 h2 h3 h4 h5 h6 h7 h8 h9 h10 h11 h13 h14
  rw [save_eq none _ ⟨f n, [2 + 2 * n]⟩ rfl rfl]
  have hlen : ((fullHist c0 f n).drop (n + 1 - 50)).length = min n 49 + 1 := by
    rw [List.length_drop, fullHist_length]
    omega
  have htr : truncHistory
      ⟨some ⟨f n, [2 + 2 * n]⟩, false, none, none, none, none,
        (fullHist c0 f n).drop (n + 1 - 50), min (n : Int) 49, true, lhs, none, [],
        pend, 2 + 2 * n + 1, 0⟩ = (fullHist c0 f n).drop (n + 1 - 50) := by
    show List.take (min (n : Int) 49 + 1).toNat ((fullHist c0 f n).drop (n + 1 - 50)) = _
    rw [show (min (n : Int) 49 + 1).toNat = min n 49 + 1 from by omega, ← hlen]
    exact List.take_length _
  have hse : saveEntry none
      ⟨some ⟨f n, [2 + 2 * n]⟩, false, none, none, none, none,
        (fullHist c0 f n).drop (n + 1 - 50), min (n : Int) 49, true, lhs, none, [],
        pend, 2 + 2 * n + 1, 0⟩ ⟨f n, [2 + 2 * n]⟩ = entC2 f n := by
    show (⟨⟨f n, [2 + 2 * n + 1]⟩, none, 0, labelOrEdit none⟩ : HistoryEntry) = entC2 f n
    rw [show 2 + 2 * n + 1 = 2 * n + 3 from by ring]
    rfl
  have hsh : savedHistory none
      ⟨some ⟨f n, [2 + 2 * n]⟩, false, none, none, none, none,
        (fullHist c0 f n).drop (n + 1 - 50), min (n : Int) 49, true, lhs, none, [],
        pend, 2 + 2 * n + 1, 0⟩ ⟨f n, [2 + 2 * n]⟩
      = (fullHist c0 f (n + 1)).drop (n + 1 + 1 - 50) := by
    unfold savedHistory
    rw [htr, hse, List.length_append, hlen, fullHist_succ]
    by_cases h49 : 49 ≤ n
    · rw [if_pos (by simp; omega)]
      rw [List.drop_append_of_le_length (by rw [hlen]; omega),
          List.drop_drop,
          List.drop_append_of_le_length (by rw [fullHist_length]; omega),
          show n + 1 - 50 + 1 = n + 1 + 1 - 50 from by omega]
    · rw [if_neg (by simp; omega)]
      rw [show n + 1 - 50 = 0 from by omega, show n + 1 + 1 - 50 = 0 from by omega,
          List.drop_zero, List.drop_zero]
  have hsi : savedIndex none
      ⟨some ⟨f n, [2 + 2 * n]⟩, false, none, none, none, none,
        (fullHist c0 f n).drop (n + 1 - 50), min (n : Int) 49, true, lhs, none, [],
        pend, 2 + 2 * n + 1, 0⟩ ⟨f n, [2 + 2 * n]⟩
      = min ((n + 1 : Nat) : Int) 49 := by
    unfold savedIndex
    rw [htr, List.length_append, hlen]
    by_cases h49 : 49 ≤ n
    · rw [if_pos (by simp; omega)]
      simp
      omega
    · rw [if_neg (by simp; omega)]
      simp
      omega
  rw [hsh, hsi]
  show EState.mk _ _ _ _ _ _ _ _ _ _ _ _ _ _ _ = stC2 c0 f (n + 1)
  unfold stC2 projC2
  rw [show 2 + 2 * n + 1 + 1 = 2 + 2 * (n + 1) from by ring]

theorem commitRun_closed (c0 : PContent) (f : Nat → PContent) (n : Nat) :
    commitState c0 f n = stC2 c0 f n := by
  induction n with
  | zero =>
    show opSetProject c0 initState = stC2 c0 f 0
    rfl
  | succ n ih =>
    have h1 : commitState c0 f (n + 1)
        = opSaveToHistory none (opUpdateProject (fun _ => f n) (commitState c0 f n)) := by
      show run (commitOps f (n + 1)) (opSetProject c0 initState) = _
      rw [show commitOps f (n + 1)
            = commitOps f n ++ [Op.updateProject (fun _ => f n), Op.saveToHistory none] from rfl,
          run_append]
      rfl
    rw [h1, ih, upd_eq (fun _ => f n) (stC2 c0 f n) (projC2 c0 f n) rfl]
    exact saveC2_aux c0 f n _ rfl rfl rfl rfl rfl rfl rfl rfl rfl rfl rfl rfl rfl

theorem histGet (c0 : PContent) (f : Nat → PContent) (N : Nat) (hN : 50 ≤ N)
    (i : Nat) (hi : i ≤ 49) :
    ((fullHist c0 f N).drop (N + 1 - 50))[i]? = some (entC2 f (N - 50 + i)) := by
  rw [List.getElem?_drop]
  show (fullHist c0 f N)[N + 1 - 50 + i]? = _
  unfold fullHist
  rw [show N + 1 - 50 + i = (N - 50 + i) + 1 from by omega]
  rw [List.getElem?_cons_succ, List.getElem?_map,
      List.getElem?_range (by omega : N - 50 + i < N)]
  rfl

theorem undoN_closed (c0 : PContent) (f : Nat → PContent) (N : Nat) (hN : 50 ≤ N) :
    ∀ k, k ≤ 49 →
      (undoN k (stC2 c0 f N)).pending = none ∧
      (undoN k (stC2 c0 f N)).history = (fullHist c0 f N).drop (N + 1 - 50) ∧
      (undoN k (stC2 c0 f N)).historyIndex = ((49 - k : Nat) : Int) ∧
      ((undoN k (stC2 c0 f N)).currentProject).map Project.content
        = some (f (N - 1 - k)) := by
  intro k
  induction k with
  | zero =>
    intro _
    refine ⟨rfl, rfl, ?_, ?_⟩
    · show min (N : Int) 49 = ((49 - 0 : Nat) : Int)
      omega
    · show (some (projC2 c0 f N)).map Project.content = some (f (N - 1 - 0))
      obtain ⟨m, rfl⟩ : ∃ m, N = m + 1 := ⟨N - 1, by omega⟩
      show some (f m) = some (f (m + 1 - 1 - 0))
      rw [show m + 1 - 1 - 0 = m from by omega]
  | succ k ih =>
    intro hk
    obtain ⟨hp, hh, hi, hc⟩ := ih (by omega)
    have hg : (undoN k (stC2 c0 f N)).history[(49 - k) - 1]?
        = some (entC2 f (N - 50 + (48 - k))) := by
      rw [hh, show 49 - k - 1 = 48 - k from by omega]
      exact histGet c0 f N hN (48 - k) (by omega)
    have hu : undoN (k + 1) (stC2 c0 f N) = opUndo (undoN k (stC2 c0 f N)) := rfl
    rw [hu, undo_eq (undoN k (stC2 c0 f N)) (49 - k) _ hp hi (by omega) hg]
    refine ⟨hp, hh, ?_, ?_⟩
    · show ((49 - k : Nat) : Int) - 1 = ((49 - (k + 1) : Nat) : Int)
      omega
    · show some (f (N - 50 + (48 - k))) = some (f (N - 1 - (k + 1)))
      rw [show N - 50 + (48 - k) = N - 1 - (k + 1) from by omega]

/-- C2: after `N > 50` commits (each `updateProject` followed by
`saveToHistory()`) from a freshly loaded project, the retained history has
length exactly 50 and equals the last 50 entries of the unbounded commit log
(every older entry has been shifted off); the cursor sits at the top, and on
each overflowing commit the oldest entry is dropped while the cursor is
adjusted down by one so it stays at `length - 1`; `undo()` applied 50 times
reaches the oldest retained entry — the snapshot of commit `N - 50` — not the
original first edit. -/
theorem history_bound_after_overflow (c0 : PContent) (f : Nat → PContent) (N : Nat)
    (hN : 50 < N) :
    (commitState c0 f N).history.length = 50 ∧
    (commitState c0 f N).history = (fullHist c0 f N).drop (N - 49) ∧
    (commitState c0 f N).historyIndex = 49 ∧
    (∀ n, 49 ≤ n →
      (commitState c0 f (n + 1)).history
          = ((commitState c0 f n).history).drop 1 ++ [entC2 f n] ∧
      (commitState c0 f (n + 1)).historyIndex
          = ((commitState c0 f (n + 1)).history.length : Int) - 1) ∧
    ((commitState c0 f N).history)[0]? = some (entC2 f (N - 50)) ∧
    ((undoN 50 (commitState c0 f N)).currentProject).map Project.content
        = some (f (N - 50)) ∧
    (undoN 50 (commitState c0 f N)).historyIndex = 0 := by
  simp only [commitRun_closed]
  obtain ⟨hp49, hh49, hi49, hc49⟩ := undoN_closed c0 f N (by omega) 49 (by omega)
  have h50 : undoN 50 (stC2 c0 f N) = undoN 49 (stC2 c0 f N) := by
    show opUndo (undoN 49 (stC2 c0 f N)) = _
    exact undo_noop _ hp49 (by rw [hi49]; simp)
  refine ⟨?_, ?_, ?_, ?_, ?_, ?_, ?_⟩
  · show ((fullHist c0 f N).drop (N + 1 - 50)).length = 50
    rw [List.length_drop, fullHist_length]
    omega
  · show (fullHist c0 f N).drop (N + 1 - 50) = (fullHist c0 f N).drop (N - 49)
    rw [show N + 1 - 50 = N - 49 from by omega]
  · show min (N : Int) 49 = 49
    omega
  · intro n hn
    constructor
    · show (fullHist c0 f (n + 1)).drop (n + 1 + 1 - 50)
          = ((fullHist c0 f n).drop (n + 1 - 50)).drop 1 ++ [entC2 f n]
      rw [List.drop_drop, fullHist_succ,
          List.drop_append_of_le_length (by rw [fullHist_length]; omega),
          show n + 1 + 1 - 50 = n + 1 - 50 + 1 from by omega]
    · show min ((n + 1 : Nat) : Int) 49
          = (((fullHist c0 f (n + 1)).drop (n + 1 + 1 - 50)).length : Int) - 1
      rw [List.length_drop, fullHist_length]
      omega
  · have := histGet c0 f N (by omega) 0 (by omega)
    rw [show N - 50 + 0 = N - 50 from by omega] at this
    exact this
  · rw [h50, hc49, show N - 1 - 49 = N - 50 from by omega]
  · rw [h50, hi49]
    rfl

theorem history_bound_after_overflow_witness :
    50 < 51 ∧
    ((commitState cC2fix fC2fix 51).history.length = 50 ∧
    (commitState cC2fix fC2fix 51).history = (fullHist cC2fix fC2fix 51).drop (51 - 49) ∧
    (commitState cC2fix fC2fix 51).historyIndex = 49 ∧
    (∀ n, 49 ≤ n →
      (commitState cC2fix fC2fix (n + 1)).history
          = ((commitState cC2fix fC2fix n).history).drop 1 ++ [entC2 fC2fix n] ∧
      (commitState cC2fix fC2fix (n + 1)).historyIndex
          = ((commitState cC2fix fC2fix (n + 1)).history.length : Int) - 1) ∧
    ((commitState cC2fix fC2fix 51).history)[0]? = some (entC2 fC2fix (51 - 50)) ∧
    ((undoN 50 (commitState cC2fix fC2fix 51)).currentProject).map Project.content
        = some (fC2fix (51 - 50)) ∧
    (undoN 50 (commitState cC2fix fC2fix 51)).historyIndex = 0) :=
  ⟨by decide, history_bound_after_overflow cC2fix fC2fix 51 (by decide)⟩

theorem flush_pending (s : EState) : (opFlushHistory s).pending = none := by
  unfold opFlushHistory
  cases hx : s.pending with
  | none => exact hx
  | some l => rfl

theorem undo_flush (s : EState) : opUndo s = opUndo (opFlushHistory s) := by
  unfold opUndo
  rw [flush_none (opFlushHistory s) (flush_pending s)]

theorem undo_flushes_pending_aux (s : EState) (lbl : Option String) (p : Project)
    (hp : s.pending = some lbl) (he : s.isHistoryEnabled = true)
    (hc : s.currentProject = some p)
    (hi : s.historyIndex = (s.history.length : Int) - 1)
    (hne : s.history ≠ []) (hlen : s.history.length ≤ 49) :
    opFlushHistory s =
      { s with
        pending := none,
        history := s.history ++ [saveEntry lbl s p],
        historyIndex := (s.history.length : Int),
        lastHistorySave := s.clock,
        fresh := s.fresh + 1 } := by
  have htr : truncHistory s = s.history := by
    unfold truncHistory
    rw [hi, show ((s.history.length : Int) - 1 + 1).toNat = s.history.length from by omega]
    exact List.take_length _
  have hsh : savedHistory lbl s p = s.history ++ [saveEntry lbl s p] := by
    unfold savedHistory
    rw [htr, if_neg (by simp; omega)]
  have hsi : savedIndex lbl s p = (s.history.length : Int) := by
    unfold savedIndex
    rw [htr, if_neg (by simp; omega)]
    simp
  unfold opFlushHistory
  rw [hp]
  show { opSaveToHistory lbl s with pending := none } = _
  rw [save_eq lbl s p hc he, hsh, hsi]

/-- C3: if a debounced history commit is pending, `undo()` first flushes it —
recording a snapshot of the live project as seen at flush time, appended once
to the history (neither lost nor duplicated) — and only then reverts, landing
on the entry that was on top before the flush, with the pending action
cleared. -/
theorem undo_flushes_pending (s : EState) (lbl : Option String) (p : Project)
    (hp : s.pending = some lbl) (he : s.isHistoryEnabled = true)
    (hc : s.currentProject = some p)
    (hi : s.historyIndex = (s.history.length : Int) - 1)
    (hne : s.history ≠ []) (hlen : s.history.length ≤ 49) :
    (opUndo s).history
        = s.history
            ++ [⟨⟨p.content, [s.fresh]⟩, s.selectedElementId, s.clock, labelOrEdit lbl⟩] ∧
    (opUndo s).historyIndex = s.historyIndex ∧
    ((opUndo s).currentProject).map Project.content
        = (s.history[s.history.length - 1]?).map (fun e => e.project.content) ∧
    (opUndo s).pending = none := by
  have hlpos : 0 < s.history.length := List.length_pos.mpr hne
  have hfl := undo_flushes_pending_aux s lbl p hp he hc hi hne hlen
  obtain ⟨e, hgetl⟩ : ∃ e, s.history[s.history.length - 1]? = some e := by
    cases hx : s.history[s.history.length - 1]? with
    | none =>
      have := List.getElem?_eq_none_iff.mp hx
      omega
    | some e => exact ⟨e, rfl⟩
  have hgf : (opFlushHistory s).history[s.history.length - 1]? = some e := by
    rw [hfl]
    show (s.history ++ [saveEntry lbl s p])[s.history.length - 1]? = some e
    rw [List.getElem?_append, if_pos (by omega)]
    exact hgetl
  rw [undo_flush s,
      undo_eq (opFlushHistory s) s.history.length e (flush_pending s) (by rw [hfl])
        hlpos hgf]
  refine ⟨?_, ?_, ?_, ?_⟩
  · show (opFlushHistory s).history = _
    rw [hfl]
    rfl
  · show (s.history.length : Int) - 1 = s.historyIndex
    rw [hi]
  · show (some ⟨e.project.content, [(opFlushHistory s).fresh]⟩ : Option Project).map
        Project.content = _
    rw [hgetl]
    rfl
  · exact flush_pending s

theorem undo_flushes_pending_witness :
    (stC3.pending = some (some "typing") ∧ stC3.isHistoryEnabled = true ∧
     stC3.currentProject = some pC3 ∧
     stC3.historyIndex = (stC3.history.length : Int) - 1 ∧
     stC3.history ≠ [] ∧ stC3.history.length ≤ 49) ∧
    ((opUndo stC3).history
        = stC3.history
            ++ [⟨⟨pC3.content, [stC3.fresh]⟩, stC3.selectedElementId, stC3.clock,
                  labelOrEdit (some "typing")⟩] ∧
     (opUndo stC3).historyIndex = stC3.historyIndex ∧
     ((opUndo stC3).currentProject).map Project.content
        = (stC3.history[stC3.history.length - 1]?).map (fun e => e.project.content) ∧
     (opUndo stC3).pending = none) :=
  ⟨⟨rfl, rfl, rfl, by decide, List.cons_ne_nil _ _, by decide⟩,
   undo_flushes_pending stC3 (some "typing") pC3 rfl rfl rfl (by decide)
     (List.cons_ne_nil _ _) (by decide)⟩

theorem not_infix_of_length_lt {pat x : List Char} (h : x.length < pat.length) :
    ¬ pat <:+: x :=
  fun hin => absurd hin.length_le (by omega)

theorem not_infix_of_splitFirst_none {pat l : List Char}
    (h : splitFirst pat l = none) : ¬ pat <:+: l :=
  (splitFirst_none_iff pat l).mp h

theorem splitFirst_self (pat y : List Char) (hne : pat ≠ []) :
    splitFirst pat (pat ++ y) = some ([], y) := by
  cases pat with
  | nil => exact absurd rfl hne
  | cons c p2 =>
    show splitFirst (c :: p2) (c :: (p2 ++ y)) = some ([], y)
    unfold splitFirst
    rw [if_pos ?hp]
    case hp =>
      rw [ List.isPrefixOf_iff_prefix]
      exact ⟨y, by simp⟩
    show some (([] : List Char), (p2 ++ y).drop p2.length) = some ([], y)
    rw [List.drop_left]

theorem splitFirst_append_first (pat x y : List Char) (hne : pat ≠ [])
    (h : ¬ pat <:+: x ++ pat.take (pat.length - 1)) :
    splitFirst pat (x ++ pat ++ y) = some (x, y) := by
  induction x with
  | nil => simpa using splitFirst_self pat y hne
  | cons c x2 ih =>
    have hplen : 0 < pat.length := List.length_pos.mpr hne
    have hx2 : ¬ pat <:+: x2 ++ pat.take (pat.length - 1) := by
      intro hin
      exact h (List.infix_cons hin)
    have hpre : pat.isPrefixOf (c :: (x2 ++ (pat ++ y))) = false := by
      by_contra hp
      rw [Bool.not_eq_false, List.isPrefixOf_iff_prefix] at hp
      have hre : c :: (x2 ++ (pat ++ y))
          = ((c :: x2) ++ pat.take (pat.length - 1))
              ++ (pat.drop (pat.length - 1) ++ y) := by
        rw [List.append_assoc, ← List.append_assoc (List.take (pat.length - 1) pat),
            List.take_append_drop]
        rfl
      rw [hre] at hp
      have hlen : pat.length ≤ ((c :: x2) ++ pat.take (pat.length - 1)).length := by
        simp [List.length_take]
        omega
      exact h (prefix_of_prefix_append hp hlen).isInfix
    rw [show (c :: x2) ++ pat ++ y = c :: (x2 ++ (pat ++ y)) from by simp]
    unfold splitFirst
    rw [hpre]
    have hih : splitFirst pat (x2 ++ (pat ++ y)) = some (x2, y) := by
      have := ih hx2
      rwa [List.append_assoc] at this
    rw [hih]
    rfl

theorem expandRepl_no_dollar (m p2 s2 l : List Char) (h : '$' ∉ l) :
    expandRepl m p2 s2 l = l := by
  induction l with
  | nil => rfl
  | cons c cs ih =>
    have hc : ¬ c = '$' := fun hq => h (hq ▸ List.mem_cons_self c cs)
    rw [expandRepl.eq_def]
    dsimp only
    rw [if_neg hc, ih (fun hm => h (List.mem_cons_of_mem _ hm))]

theorem styleTagFor_decomp (cf : XFile) :
    styleTagFor cf = openTag ++ midOf cf ++ closeTag := by
  simp [styleTagFor, midOf, List.append_assoc]

theorem blocksOf_append (ds : List XFile) (cf : XFile) :
    blocksOf (ds ++ [cf]) = blocksOf ds ++ blockOf cf := by
  induction ds with
  | nil => simp [blocksOf]
  | cons d ds ih => simp [blocksOf, ih]

theorem blocksOf_length_ge (ds : List XFile) : ds.length ≤ (blocksOf ds).length := by
  induction ds with
  | nil => simp [blocksOf]
  | cons d ds ih =>
    show (d :: ds).length ≤ (blockOf d ++ blocksOf ds).length
    rw [List.length_append, List.length_cons]
    have : 1 ≤ (blockOf d).length := by
      simp [blockOf]
    omega

theorem idx_ne_of_not_mem_drop {pat : List Char} {x : Char} (h : x ∉ pat.drop 1)
    {k : Nat} (h1 : 0 < k) : pat[k]? ≠ some x := by
  intro hk
  have h2 : (pat.drop 1)[k - 1]? = some x := by
    rw [List.getElem?_drop, show 1 + (k - 1) = k from by omega]
    exact hk
  exact h (List.getElem?_mem h2)

theorem idx_ne_of_not_mem_take {pat : List Char} {x : Char}
    (h : x ∉ pat.take (pat.length - 1)) {k : Nat} (h1 : 0 < k) (h2 : k < pat.length) :
    pat[k - 1]? ≠ some x := by
  intro hk
  have h3 : (pat.take (pat.length - 1))[k - 1]? = some x := by
    rw [List.getElem?_take, if_pos (by omega)]
    exact hk
  exact h (List.getElem?_mem h3)

theorem pat_not_in_blockOf (m : Char → Char) (pat : List Char) (cf : XFile)
    (hplen : 5 ≤ pat.length)
    (hopen : ¬ pat <:+: openTag.map m)
    (hclose : ¬ pat <:+: closeTag.map m)
    (hpath : ¬ pat <:+: cf.path.map m)
    (hcont : ¬ pat <:+: cf.content.map m)
    (hnl : m '\n' ∉ pat.drop 1)
    (hlt : m '<' ∉ pat.drop 1)
    (hsp : m ' ' ∉ pat.drop 1)
    (hlspt : m ' ' ∉ pat.take (pat.length - 1))
    (hlnlt : m '\n' ∉ pat.take (pat.length - 1)) :
    ¬ pat <:+: (blockOf cf).map m := by
  have h1 : ¬ pat <:+: closeTag.map m ++ ['\n'].map m :=
    not_infix_append_head hclose (not_infix_of_length_lt (by simp; omega))
      (fun k hk1 _ => idx_ne_of_not_mem_drop hnl hk1)
  have h2 : ¬ pat <:+: "\n".data.map m ++ (closeTag.map m ++ ['\n'].map m) :=
    not_infix_append_head (not_infix_of_length_lt (by simp; omega)) h1
      (fun k hk1 _ => idx_ne_of_not_mem_drop hlt hk1)
  have h3 : ¬ pat <:+: cf.content.map m
      ++ ("\n".data.map m ++ (closeTag.map m ++ ['\n'].map m)) :=
    not_infix_append_head hcont h2
      (fun k hk1 _ => idx_ne_of_not_mem_drop hnl hk1)
  have h4 : ¬ pat <:+: " */\n".data.map m ++ (cf.content.map m
      ++ ("\n".data.map m ++ (closeTag.map m ++ ['\n'].map m))) :=
    not_infix_append_last (not_infix_of_length_lt (by simp; omega)) h3
      (fun k hk1 hk2 => idx_ne_of_not_mem_take hlnlt hk1 hk2)
  have h5 : ¬ pat <:+: cf.path.map m ++ (" */\n".data.map m ++ (cf.content.map m
      ++ ("\n".data.map m ++ (closeTag.map m ++ ['\n'].map m)))) :=
    not_infix_append_head hpath h4
      (fun k hk1 _ => idx_ne_of_not_mem_drop hsp hk1)
  have h6 : ¬ pat <:+: "\n/* ".data.map m ++ (cf.path.map m ++ (" */\n".data.map m
      ++ (cf.content.map m ++ ("\n".data.map m ++ (closeTag.map m ++ ['\n'].map m))))) :=
    not_infix_append_last (not_infix_of_length_lt (by simp; omega)) h5
      (fun k hk1 hk2 => idx_ne_of_not_mem_take hlspt hk1 hk2)
  have h7 : ¬ pat <:+: openTag.map m ++ ("\n/* ".data.map m ++ (cf.path.map m
      ++ (" */\n".data.map m ++ (cf.content.map m
        ++ ("\n".data.map m ++ (closeTag.map m ++ ['\n'].map m)))))) :=
    not_infix_append_head hopen h6
      (fun k hk1 _ => idx_ne_of_not_mem_drop hnl hk1)
  have heq : (blockOf cf).map m = openTag.map m ++ ("\n/* ".data.map m ++ (cf.path.map m
      ++ (" */\n".data.map m ++ (cf.content.map m
        ++ ("\n".data.map m ++ (closeTag.map m ++ ['\n'].map m)))))) := by
    simp [blockOf, styleTagFor, List.map_append, List.append_assoc]
  rw [heq]
  exact h7

theorem pat_not_in_blocksOf (m : Char → Char) (pat : List Char)
    (hplen : 5 ≤ pat.length)
    (hopen : ¬ pat <:+: openTag.map m)
    (hclose : ¬ pat <:+: closeTag.map m)
    (hnl : m '\n' ∉ pat.drop 1)
    (hlt : m '<' ∉ pat.drop 1)
    (hsp : m ' ' ∉ pat.drop 1)
    (hlspt : m ' ' ∉ pat.take (pat.length - 1))
    (hlnlt : m '\n' ∉ pat.take (pat.length - 1))
    (ds : List XFile)
    (hds : ∀ cf ∈ ds, ¬ pat <:+: cf.path.map m ∧ ¬ pat <:+: cf.content.map m) :
    ¬ pat <:+: (blocksOf ds).map m := by
  induction ds with
  | nil => exact not_infix_of_length_lt (by simp [blocksOf]; omega)
  | cons cf ds ih =>
    have hblock := pat_not_in_blockOf m pat cf hplen hopen hclose
      (hds cf (List.mem_cons_self cf ds)).1 (hds cf (List.mem_cons_self cf ds)).2
      hnl hlt hsp hlspt hlnlt
    have hrest := ih (fun g hg => hds g (List.mem_cons_of_mem _ hg))
    have hhead : ∀ k, 0 < k → k < pat.length →
        pat[k]? ≠ ((blocksOf ds).map m).head? := by
      intro k hk1 hk2
      cases ds with
      | nil =>
        intro hEq
        have := List.getElem?_eq_none_iff.mp hEq
        omega
      | cons g gs => exact idx_ne_of_not_mem_drop hlt hk1
    rw [show (blocksOf (cf :: ds)).map m = (blockOf cf).map m ++ (blocksOf ds).map m
      from by simp [blocksOf]]
    exact not_infix_append_head hblock hrest hhead

/-- No `</style>` occurs in an injected block before the block's own closing
tag, so the export strip always pairs the marker open tag with that tag. -/
theorem closeTag_not_before (cf : XFile)
    (hp : ¬ closeTag <:+: cf.path) (hc : ¬ closeTag <:+: cf.content) :
    ¬ closeTag <:+: midOf cf ++ closeTag.take (closeTag.length - 1) := by
  have u1 : ¬ closeTag <:+: "\n".data ++ closeTag.take (closeTag.length - 1) :=
    not_infix_append_head (not_infix_of_length_lt (by decide))
      (not_infix_of_length_lt (by decide))
      (fun k hk1 _ => idx_ne_of_not_mem_drop (by decide) hk1)
  have u2 : ¬ closeTag <:+: cf.content
      ++ ("\n".data ++ closeTag.take (closeTag.length - 1)) :=
    not_infix_append_head hc u1
      (fun k hk1 _ => idx_ne_of_not_mem_drop (by decide) hk1)
  have u3 : ¬ closeTag <:+: " */\n".data ++ (cf.content
      ++ ("\n".data ++ closeTag.take (closeTag.length - 1))) :=
    not_infix_append_last (not_infix_of_length_lt (by decide)) u2
      (fun k hk1 hk2 => idx_ne_of_not_mem_take (by decide) hk1 hk2)
  have u4 : ¬ closeTag <:+: cf.path ++ (" */\n".data ++ (cf.content
      ++ ("\n".data ++ closeTag.take (closeTag.length - 1)))) :=
    not_infix_append_head hp u3
      (fun k hk1 _ => idx_ne_of_not_mem_drop (by decide) hk1)
  have u5 : ¬ closeTag <:+: "\n/* ".data ++ (cf.path ++ (" */\n".data ++ (cf.content
      ++ ("\n".data ++ closeTag.take (closeTag.length - 1))))) :=
    not_infix_append_last (not_infix_of_length_lt (by decide)) u4
      (fun k hk1 hk2 => idx_ne_of_not_mem_take (by decide) hk1 hk2)
  rw [show midOf cf ++ closeTag.take (closeTag.length - 1)
      = "\n/* ".data ++ (cf.path ++ (" */\n".data ++ (cf.content
        ++ ("\n".data ++ closeTag.take (closeTag.length - 1)))))
    from by simp [midOf, List.append_assoc]]
  exact u5

theorem stripGo_no_open (s : List Char) (h : ¬ openTag <:+: s) :
    ∀ fuel, stripGo fuel s = s := by
  intro fuel
  cases fuel with
  | zero => rfl
  | succ f =>
    rw [stripGo.eq_def]
    dsimp only
    rw [(splitFirst_none_iff openTag s).mpr h]

theorem stripGo_blocks (tail : List Char) (htail : ¬ openTag <:+: tail) :
    ∀ ds : List XFile,
      (∀ cf ∈ ds, ¬ closeTag <:+: cf.path ∧ ¬ closeTag <:+: cf.content) →
      ∀ fuel, ds.length ≤ fuel → stripGo fuel (blocksOf ds ++ tail) = tail := by
  intro ds
  induction ds with
  | nil =>
    intro _ fuel _
    show stripGo fuel tail = tail
    exact stripGo_no_open tail htail fuel
  | cons cf ds ih =>
    intro hds fuel hfuel
    obtain ⟨f, rfl⟩ : ∃ f, fuel = f + 1 := ⟨fuel - 1, by simp at hfuel; omega⟩
    rw [show blocksOf (cf :: ds) ++ tail
        = openTag ++ ((midOf cf ++ closeTag) ++ ('\n' :: (blocksOf ds ++ tail)))
      from by simp [blocksOf, blockOf, styleTagFor, midOf, List.append_assoc]]
    rw [stripGo.eq_def]
    dsimp only
    rw [splitFirst_self openTag _ (by decide)]
    dsimp only
    rw [splitFirst_append_first closeTag (midOf cf)
      ('\n' :: (blocksOf ds ++ tail)) (by decide)
      (closeTag_not_before cf (hds cf (List.mem_cons_self cf ds)).1
        (hds cf (List.mem_cons_self cf ds)).2)]
    show stripGo f (blocksOf ds ++ tail) = tail
    exact ih (fun g hg => hds g (List.mem_cons_of_mem _ hg)) f (by simp at hfuel; omega)

theorem stripInjected_assembled (a b : List Char) (ds : List XFile)
    (ha : ¬ openTag <:+: a) (htb : ¬ openTag <:+: headClose ++ b)
    (hds : ∀ cf ∈ ds, ¬ closeTag <:+: cf.path ∧ ¬ closeTag <:+: cf.content) :
    stripInjected (a ++ (blocksOf ds ++ (headClose ++ b))) = a ++ (headClose ++ b) := by
  have hopenchars : ∀ k, 0 < k → k < openTag.length →
      openTag[k]? ≠ ((headClose ++ b)).head? :=
    fun k hk1 _ => idx_ne_of_not_mem_drop (by decide) hk1
  cases ds with
  | nil =>
    have hno : ¬ openTag <:+: a ++ (blocksOf [] ++ (headClose ++ b)) :=
      not_infix_append_head ha htb hopenchars
    exact stripGo_no_open _ hno _
  | cons cf ds =>
    have hx : ¬ openTag <:+: a ++ openTag.take (openTag.length - 1) :=
      not_infix_append_head ha (not_infix_of_length_lt (by decide))
        (fun k hk1 _ => idx_ne_of_not_mem_drop (by decide) hk1)
    have hlen : ds.length
        ≤ (a ++ (blocksOf (cf :: ds) ++ (headClose ++ b))).length - 1 := by
      have h1 := blocksOf_length_ge (cf :: ds)
      simp only [List.length_append, List.length_cons] at h1 ⊢
      omega
    show stripGo (a ++ (blocksOf (cf :: ds) ++ (headClose ++ b))).length
        (a ++ (blocksOf (cf :: ds) ++ (headClose ++ b))) = a ++ (headClose ++ b)
    obtain ⟨n, hn⟩ : ∃ n, (a ++ (blocksOf (cf :: ds) ++ (headClose ++ b))).length
        = n + 1 := by
      refine ⟨(a ++ (blocksOf (cf :: ds) ++ (headClose ++ b))).length - 1, ?_⟩
      have h1 := blocksOf_length_ge (cf :: ds)
      simp only [List.length_append, List.length_cons] at h1 ⊢
      omega
    rw [hn]
    rw [show a ++ (blocksOf (cf :: ds) ++ (headClose ++ b))
        = a ++ (openTag ++ ((midOf cf ++ closeTag)
            ++ ('\n' :: (blocksOf ds ++ (headClose ++ b)))))
      from by simp [blocksOf, blockOf, styleTagFor, midOf, List.append_assoc]]
    rw [stripGo.eq_def]
    dsimp only
    rw [show a ++ (openTag ++ ((midOf cf ++ closeTag)
          ++ ('\n' :: (blocksOf ds ++ (headClose ++ b)))))
        = a ++ openTag ++ ((midOf cf ++ closeTag)
          ++ ('\n' :: (blocksOf ds ++ (headClose ++ b))))
      from by simp [List.append_assoc]]
    rw [splitFirst_append_first openTag a _ (by decide) hx]
    dsimp only
    rw [splitFirst_append_first closeTag (midOf cf)
      ('\n' :: (blocksOf ds ++ (headClose ++ b))) (by decide)
      (closeTag_not_before cf (hds cf (List.mem_cons_self cf ds)).1
        (hds cf (List.mem_cons_self cf ds)).2)]
    show a ++ stripGo n (blocksOf ds ++ (headClose ++ b)) = a ++ (headClose ++ b)
    rw [stripGo_blocks (headClose ++ b) htb ds
      (fun g hg => hds g (List.mem_cons_of_mem _ hg)) n (by
        rw [hn] at hlen
        simpa using hlen)]

theorem headClose_not_in_blocksOf (ds : List XFile)
    (hds : ∀ cf ∈ ds, ¬ headClose <:+: cf.path ∧ ¬ headClose <:+: cf.content) :
    ¬ headClose <:+: blocksOf ds := by
  have h := pat_not_in_blocksOf id headClose (by decide)
    (by rw [List.map_id]; exact not_infix_of_splitFirst_none (by decide))
    (by rw [List.map_id]; exact not_infix_of_splitFirst_none (by decide))
    (by decide) (by decide) (by decide) (by decide) (by decide) ds
    (fun cf hcf => by
      rw [List.map_id, List.map_id]
      exact hds cf hcf)
  rwa [List.map_id] at h

theorem dollar_not_in_repl (cf : XFile) (hp : '$' ∉ cf.path) (hc : '$' ∉ cf.content) :
    '$' ∉ styleTagFor cf ++ '\n' :: headClose := by
  intro h
  simp only [styleTagFor, List.append_assoc, List.mem_append, List.mem_cons] at h
  rcases h with h | h | h | h | h | h | h | h
  · revert h; decide
  · revert h; decide
  · exact hp h
  · revert h; decide
  · exact hc h
  · revert h; decide
  · revert h; decide
  · rcases h with h | h
    · revert h; decide
    · revert h; decide

theorem buildFold_nohead (L : List XFile) (html : List Char)
    (h : splitFirst headClose html = none) :
    L.foldl (fun html cf =>
      if containsSub (hrefNeedle cf.path) html = false ∧
          containsSub (hrefNeedle (basename cf.path)) html = false then
        replaceFirst headClose (styleTagFor cf ++ '\n' :: headClose) html
      else html) html = html := by
  induction L with
  | nil => rfl
  | cons cf L ih =>
    have hstep : (if containsSub (hrefNeedle cf.path) html = false ∧
          containsSub (hrefNeedle (basename cf.path)) html = false then
        replaceFirst headClose (styleTagFor cf ++ '\n' :: headClose) html
      else html) = html := by
      split
      · unfold replaceFirst
        rw [h]
      · rfl
    show List.foldl _ (if containsSub (hrefNeedle cf.path) html = false ∧
          containsSub (hrefNeedle (basename cf.path)) html = false then
        replaceFirst headClose (styleTagFor cf ++ '\n' :: headClose) html
      else html) L = html
    rw [hstep]
    exact ih

theorem buildFold_shape (a b : List Char) (hnha : ¬ headClose <:+: a) :
    ∀ (L : List XFile), (∀ cf ∈ L, GoodCss cf) →
    ∀ ds : List XFile, (∀ cf ∈ ds, GoodCss cf) →
      ∃ es : List XFile, (∀ cf ∈ es, GoodCss cf) ∧
        L.foldl (fun html cf =>
          if containsSub (hrefNeedle cf.path) html = false ∧
              containsSub (hrefNeedle (basename cf.path)) html = false then
            replaceFirst headClose (styleTagFor cf ++ '\n' :: headClose) html
          else html) (a ++ (blocksOf ds ++ (headClose ++ b)))
        = a ++ (blocksOf es ++ (headClose ++ b)) := by
  intro L
  induction L with
  | nil =>
    intro _ ds hds
    exact ⟨ds, hds, rfl⟩
  | cons cf L ih =>
    intro hL ds hds
    by_cases hcond : containsSub (hrefNeedle cf.path) (a ++ (blocksOf ds ++ (headClose ++ b))) = false ∧
        containsSub (hrefNeedle (basename cf.path)) (a ++ (blocksOf ds ++ (headClose ++ b))) = false
    · have hfirst : ¬ headClose <:+: (a ++ blocksOf ds)
          ++ headClose.take (headClose.length - 1) := by
        have hin : ¬ headClose <:+: blocksOf ds
            ++ headClose.take (headClose.length - 1) :=
          not_infix_append_head
            (headClose_not_in_blocksOf ds (fun g hg => (hds g hg).2.1))
            (not_infix_of_length_lt (by decide))
            (fun k hk1 _ => idx_ne_of_not_mem_drop (by decide) hk1)
        rw [List.append_assoc]
        refine not_infix_append_head hnha hin ?_
        intro k hk1 hk2
        cases ds with
        | nil => exact idx_ne_of_not_mem_drop (by decide) hk1
        | cons g gs => exact idx_ne_of_not_mem_drop (by decide) hk1
      have hrepl : replaceFirst headClose (styleTagFor cf ++ '\n' :: headClose)
            (a ++ (blocksOf ds ++ (headClose ++ b)))
          = a ++ (blocksOf (ds ++ [cf]) ++ (headClose ++ b)) := by
        unfold replaceFirst
        rw [show a ++ (blocksOf ds ++ (headClose ++ b))
            = (a ++ blocksOf ds) ++ headClose ++ b from by simp [List.append_assoc]]
        rw [splitFirst_append_first headClose (a ++ blocksOf ds) b
          (by decide) hfirst]
        dsimp only
        rw [expandRepl_no_dollar _ _ _ _
          (dollar_not_in_repl cf (hL cf (List.mem_cons_self cf L)).2.2.2.1
            (hL cf (List.mem_cons_self cf L)).2.2.2.2)]
        rw [blocksOf_append]
        simp [blockOf, List.append_assoc]
      have hgood : ∀ g ∈ ds ++ [cf], GoodCss g := by
        intro g hg
        rcases List.mem_append.mp hg with hg1 | hg2
        · exact hds g hg1
        · rw [List.mem_singleton.mp hg2]
          exact hL cf (List.mem_cons_self cf L)
      obtain ⟨es, hes, heq⟩ := ih (fun g hg => hL g (List.mem_cons_of_mem _ hg))
        (ds ++ [cf]) hgood
      refine ⟨es, hes, ?_⟩
      show List.foldl _ (if _ then _ else _) L = _
      rw [if_pos hcond, hrepl]
      exact heq
    · obtain ⟨es, hes, heq⟩ := ih (fun g hg => hL g (List.mem_cons_of_mem _ hg)) ds hds
      refine ⟨es, hes, ?_⟩
      show List.foldl _ (if _ then _ else _) L = _
      rw [if_neg hcond]
      exact heq

theorem ciPrefix_false_of_clean {s t : List Char}
    (h : ¬ lcs linkLit <:+: lcs s) (hsuf : t <:+ s) : ciPrefix linkLit t = false := by
  by_contra hb
  rw [Bool.not_eq_false] at hb
  unfold ciPrefix at hb
  rw [ List.isPrefixOf_iff_prefix] at hb
  apply h
  have h1 : lcs (t.take linkLit.length) <+: lcs t :=
    ( List.take_prefix _ t).map Char.toLower
  have h2 : lcs t <:+ lcs s := hsuf.map Char.toLower
  exact ((hb.trans h1).isInfix).trans h2.isInfix

theorem linkGo_id (cf : XFile) : ∀ (s : List Char) (fuel : Nat),
    (∀ t, t <:+ s → ciPrefix linkLit t = false) → linkGo fuel cf s = s := by
  intro s
  induction s with
  | nil =>
    intro fuel _
    cases fuel <;> rfl
  | cons c cs ih =>
    intro fuel h
    cases fuel with
    | zero => rfl
    | succ f =>
      simp only [linkGo]
      rw [h (c :: cs) (List.suffix_refl _)]
      simp only [Bool.false_eq_true, if_false]
      rw [ih f (fun t ht => h t (ht.trans (List.suffix_cons c cs)))]

theorem linkFold_id (L : List XFile) (h1 : List Char)
    (h : ∀ t, t <:+ h1 → ciPrefix linkLit t = false) :
    L.foldl (fun html cf => linkReplaceAll cf html) h1 = h1 := by
  induction L with
  | nil => rfl
  | cons cf L ih =>
    show L.foldl _ (linkReplaceAll cf h1) = h1
    rw [show linkReplaceAll cf h1 = h1 from linkGo_id cf h1 h1.length h]
    exact ih

theorem link_not_in_assembled (a b : List Char) (es : List XFile)
    (ha : ¬ lcs linkLit <:+: lcs a)
    (htb : ¬ lcs linkLit <:+: lcs (headClose ++ b))
    (hes : ∀ cf ∈ es, ¬ lcs linkLit <:+: lcs cf.path ∧ ¬ lcs linkLit <:+: lcs cf.content) :
    ¬ lcs linkLit <:+: lcs (a ++ (blocksOf es ++ (headClose ++ b))) := by
  have hblocks : ¬ lcs linkLit <:+: (blocksOf es).map Char.toLower :=
    pat_not_in_blocksOf Char.toLower (lcs linkLit) (by decide)
      (not_infix_of_splitFirst_none (by decide))
      (not_infix_of_splitFirst_none (by decide))
      (by decide) (by decide) (by decide) (by decide) (by decide) es hes
  have hd2 : ¬ lcs linkLit <:+: (blocksOf es).map Char.toLower ++ lcs (headClose ++ b) :=
    not_infix_append_head hblocks htb
      (fun k hk1 _ => idx_ne_of_not_mem_drop (by decide) hk1)
  have htop : ¬ lcs linkLit <:+: lcs a
      ++ ((blocksOf es).map Char.toLower ++ lcs (headClose ++ b)) := by
    refine not_infix_append_head ha hd2 ?_
    intro k hk1 hk2
    cases es with
    | nil => exact idx_ne_of_not_mem_drop (by decide) hk1
    | cons g gs => exact idx_ne_of_not_mem_drop (by decide) hk1
  rw [show lcs (a ++ (blocksOf es ++ (headClose ++ b)))
      = lcs a ++ ((blocksOf es).map Char.toLower ++ lcs (headClose ++ b))
    from by simp [lcs, List.map_append]]
  exact htop

/-- C8 (amended): for a project whose root HTML contains no marker-tagged
injected style block and no case-insensitive `<link` occurrence, and whose
CSS files' paths and contents are free of `</style>`, `</head>`,
case-insensitive `<link` and `$`, the export strip applied to the assembled
document restores the root HTML file's content exactly, and every other
file's exported content is unchanged. -/
theorem export_assemble_roundtrip (p : XProject) (hf : XFile)
    (hfind : p.files.find? (fun f => decide (f.path = p.rootHtmlPath)) = some hf)
    (hopen : ¬ openTag <:+: hf.content)
    (hlink : ¬ lcs linkLit <:+: lcs hf.content)
    (hcss : ∀ cf ∈ p.files.filter (fun f => decide (f.ftype = FType.css)), GoodCss cf) :
    stripInjected (buildHtmlDocument p) = hf.content ∧
    (∀ f ∈ p.files, f.ftype ≠ FType.html → exportContent f = f.content) ∧
    (∀ f ∈ p.files, ¬ openTag <:+: f.content → exportContent f = f.content) := by
  refine ⟨?_, ?_, ?_⟩
  · have hbuild : buildHtmlDocument p
        = (p.files.filter (fun f => decide (f.ftype = FType.css))).foldl
            (fun html cf => linkReplaceAll cf html)
            ((p.files.filter (fun f => decide (f.ftype = FType.css))).foldl
              (fun html cf =>
                if containsSub (hrefNeedle cf.path) html = false ∧
                    containsSub (hrefNeedle (basename cf.path)) html = false then
                  replaceFirst headClose (styleTagFor cf ++ '\n' :: headClose) html
                else html) hf.content) := by
      unfold buildHtmlDocument
      rw [hfind]
    rw [hbuild]
    cases hsplit : splitFirst headClose hf.content with
    | none =>
      rw [buildFold_nohead _ _ hsplit]
      rw [linkFold_id _ _ (fun t ht => ciPrefix_false_of_clean hlink ht)]
      exact stripGo_no_open _ hopen _
    | some ab =>
      obtain ⟨a, b⟩ := ab
      have hcontent : hf.content = a ++ headClose ++ b :=
        splitFirst_eq headClose hf.content a b hsplit
      have hnha : ¬ headClose <:+: a :=
        splitFirst_not_infix_pre headClose hf.content a b (by decide) hsplit
      have hassoc : hf.content = a ++ (blocksOf [] ++ (headClose ++ b)) := by
        rw [hcontent]
        simp [blocksOf]
      have haopen : ¬ openTag <:+: a := fun hin => hopen (by
        rw [hcontent]
        exact infix_of_infix_left _ (infix_of_infix_left _ hin))
      have htbopen : ¬ openTag <:+: headClose ++ b := fun hin => hopen (by
        rw [hcontent, List.append_assoc]
        exact infix_of_infix_right a hin)
      have halink : ¬ lcs linkLit <:+: lcs a := fun hin => hlink (by
        rw [hcontent,
          show lcs (a ++ headClose ++ b) = lcs a ++ lcs headClose ++ lcs b
            from by simp [lcs]]
        exact infix_of_infix_left _ (infix_of_infix_left _ hin))
      have htblink : ¬ lcs linkLit <:+: lcs (headClose ++ b) := fun hin => hlink (by
        rw [hcontent,
          show lcs (a ++ headClose ++ b) = lcs a ++ lcs (headClose ++ b)
            from by simp [lcs]]
        exact infix_of_infix_right _ hin)
      obtain ⟨es, hes, heq⟩ := buildFold_shape a b hnha
        (p.files.filter (fun f => decide (f.ftype = FType.css))) hcss [] (by simp)
      rw [hassoc, heq]
      have hlinkfree := link_not_in_assembled a b es halink htblink
        (fun cf hcf => (hes cf hcf).2.2.1)
      rw [linkFold_id _ _ (fun t ht => ciPrefix_false_of_clean hlinkfree ht)]
      rw [stripInjected_assembled a b es haopen htbopen (fun cf hcf => (hes cf hcf).1)]
      rfl
  · intro f _ hnot
    unfold exportContent
    rw [if_neg hnot]
  · intro f _ hfree
    unfold exportContent
    by_cases hh : f.ftype = FType.html
    · rw [if_pos hh]
      exact stripGo_no_open _ hfree _
    · rw [if_neg hh]

theorem export_assemble_roundtrip_witness :
    (pW8.files.find? (fun f => decide (f.path = pW8.rootHtmlPath)) = some hfW8 ∧
     ¬ openTag <:+: hfW8.content ∧
     ¬ lcs linkLit <:+: lcs hfW8.content ∧
     ∀ cf ∈ pW8.files.filter (fun f => decide (f.ftype = FType.css)), GoodCss cf) ∧
    (stripInjected (buildHtmlDocument pW8) = hfW8.content ∧
     (∀ f ∈ pW8.files, f.ftype ≠ FType.html → exportContent f = f.content) ∧
     (∀ f ∈ pW8.files, ¬ openTag <:+: f.content → exportContent f = f.content)) := by
  have h1 : pW8.files.find? (fun f => decide (f.path = pW8.rootHtmlPath)) = some hfW8 := rfl
  have h2 : ¬ openTag <:+: hfW8.content := not_infix_of_splitFirst_none (by decide)
  have h3 : ¬ lcs linkLit <:+: lcs hfW8.content := not_infix_of_splitFirst_none (by decide)
  have h4 : ∀ cf ∈ pW8.files.filter (fun f => decide (f.ftype = FType.css)),
      GoodCss cf := by
    intro cf hcf
    rw [show pW8.files.filter (fun f => decide (f.ftype = FType.css)) = [cssW8]
      from rfl] at hcf
    rw [List.mem_singleton.mp hcf]
    exact ⟨⟨not_infix_of_splitFirst_none (by decide),
        not_infix_of_splitFirst_none (by decide)⟩,
      ⟨not_infix_of_splitFirst_none (by decide),
        not_infix_of_splitFirst_none (by decide)⟩,
      ⟨not_infix_of_splitFirst_none (by decide),
        not_infix_of_splitFirst_none (by decide)⟩,
      by decide, by decide⟩
  exact ⟨⟨h1, h2, h3, h4⟩, export_assemble_roundtrip pW8 hfW8 h1 h2 h3 h4⟩

/-- C8 counterexample: on a project with no CSS files and no `<link>` tags at
all, whose root HTML happens to contain a block bearing the injection marker,
`createZipFromProject`'s strip deletes that block from the assembled document,
so the exported content differs from the file's original content. -/
theorem export_roundtrip_cex :
    pC8.files.find? (fun f => decide (f.path = pC8.rootHtmlPath)) = some hfC8 ∧
    stripInjected (buildHtmlDocument pC8) ≠ hfC8.content := by
  constructor
  · rfl
  · decide

end FigmaEditor
